import Mathlib

/-!
Verification of the reinsurance cession/aggregation engine
(`openquake/risklib/reinsurance.py`).

The development shallowly embeds the core numeric algorithms of the module:

* `apply_treaty` — the element-wise treaty-split primitive;
* `claim_to_cessions` — per-policy proportional and wxlr cessions;
* `build_policy_grp` — the policy grouping key;
* `clever_agg` — the recursive aggregate-treaty engine
  (with `fast_agg2`, which lives in `openquake.baselib`, modelled from
  the specification);
* `_by_event` — the per-event aggregation wrapper and its final
  reconciliation assertion.

Monetary amounts are modelled as rationals (the Python code uses float64;
all the algebraic laws proved here are exact in ℚ).  Python in-place
array mutation is modelled by explicit state passing, numpy arrays by
`List ℚ`, matrices by `List (List ℚ)` (one row per event), Python dicts
by association lists, and raising code by `Option` (`none` = raised).
-/

namespace Reinsurance

/-- Treaty types: `prop`, `wxlr`, `catxl` (see `treaty_df.type`). -/
inductive TreatyType : Type
  | prop : TreatyType
  | wxlr : TreatyType
  | catxl : TreatyType
deriving DecidableEq

/-- A row of `treaty_df`: `(id, type, deductible, limit, code)`.
`code` is the single symbol assigned from `BASE183` in declaration order. -/
structure Treaty : Type where
  id : String
  ttype : TreatyType
  deductible : ℚ
  limit : ℚ
  code : Char
deriving DecidableEq

instance : Inhabited Treaty := ⟨⟨"", TreatyType.prop, 0, 0, ' '⟩⟩

/-- Round-half-to-even on ℚ, the tie rule of `np.round`. -/
def rhe (q : ℚ) : ℤ :=
  if q - ⌊q⌋ < 1/2 then ⌊q⌋
  else if 1/2 < q - ⌊q⌋ then ⌊q⌋ + 1
  else if ⌊q⌋ % 2 = 0 then ⌊q⌋ else ⌊q⌋ + 1

/-- `np.round(v, 6)`: round to 6 decimal places (half to even). -/
def round6 (q : ℚ) : ℚ := (rhe (q * 1000000) : ℚ) / 1000000

/-- One element of `apply_treaty` (reinsurance.py:138-147): the treaty-split
primitive on a single (cession, retention) pair.  Returns the new
(cession, retention) pair; the source mutates the arrays in place. -/
def apply_treaty1 (cession ret deduc capacity : ℚ) : ℚ × ℚ :=
  if deduc < ret then
    if capacity < ret - deduc then (capacity, deduc + (ret - deduc) - capacity)
    else (ret - deduc, deduc)
  else (cession, ret)

/-- `apply_treaty(cession, retention, deduc, capacity)` applied element-wise;
returns the pair (new cession array, new retention array). -/
def apply_treaty (cession retention : List ℚ) (deduc capacity : ℚ) :
    List ℚ × List ℚ :=
  (List.zipWith (fun ces r => (apply_treaty1 ces r deduc capacity).1) cession retention,
   List.zipWith (fun ces r => (apply_treaty1 ces r deduc capacity).2) cession retention)

/-- Output of `claim_to_cessions`: the dict
`{'retention': …, 'claim': …, col: … for each prop/wxlr treaty}`,
with the treaty columns kept in insertion order. -/
structure CessionOut : Type where
  retention : List ℚ
  claim : List ℚ
  cession : List (String × List ℚ)
deriving DecidableEq

/-- The body of the wxlr loop of `claim_to_cessions`
(reinsurance.py:167-171): `out[col] = np.zeros(len(claim))`, and when the
policy participates, `apply_treaty(out[col], out['retention'], deduc,
limit - deduc)` updating the cession column and the retention in place. -/
def wxlStep (claimLen : ℕ) (policy : String → ℚ)
    (acc : List (String × List ℚ) × List ℚ) (t : Treaty) :
    List (String × List ℚ) × List ℚ :=
  if policy t.id ≠ 0 then
    let p := apply_treaty (List.replicate claimLen 0) acc.2
      t.deductible (t.limit - t.deductible)
    (acc.1 ++ [(t.id, p.1)], p.2)
  else (acc.1 ++ [(t.id, List.replicate claimLen 0)], acc.2)

/-- `claim_to_cessions(claim, policy, treaty_df)` (reinsurance.py:150-173).
A policy is modelled as the map column-name ↦ numeric value (fractions for
prop treaties; 0/1 participation flags for wxlr/catxl treaties; Python
truthiness of a flag is `≠ 0`).  The `assert sum(fractions) <= 1` is
modelled by returning `none` (= AssertionError) when `1 < Σ fractions`. -/
def claim_to_cessions (claim : List ℚ) (policy : String → ℚ)
    (tdf : List Treaty) : Option CessionOut :=
  let props := tdf.filter (fun t => t.ttype = TreatyType.prop)
  let fractions := props.map (fun t => policy t.id)
  if 1 < fractions.sum then none
  else
    let ret0 := claim.map (fun x => x * (1 - fractions.sum))
    let propOut := props.map (fun t => (t.id, claim.map (fun x => x * policy t.id)))
    let wxl := tdf.filter (fun t => t.ttype = TreatyType.wxlr)
    let step := wxl.foldl (wxlStep claim.length policy) ([], ret0)
    some { retention := step.2.map round6,
           claim := claim.map round6,
           cession := (propOut ++ step.1).map (fun p => (p.1, p.2.map round6)) }

/-- `build_policy_grp(policy, treaty_df)` (reinsurance.py:176-189): one symbol
per treaty in catalog order; the treaty code, or the sentinel '.' for a
catxl treaty in which the policy does not participate. -/
def build_policy_grp (policy : String → ℚ) (tdf : List Treaty) : String :=
  String.mk (tdf.map (fun t =>
    if t.ttype = TreatyType.catxl ∧ policy t.id = 0 then '.' else t.code))

/-! ## The aggregate-treaty engine `clever_agg` -/

/-- One per-event row of a group matrix: columns
`[retention, claim, cession per treaty code…]` (the `outcols` of
`_by_event`). -/
abbrev Row : Type := List ℚ

/-- A group matrix of shape (E events) × (2 + number of treaties). -/
abbrev Mat : Type := List Row

/-- The overspill dictionary `overdict` of `clever_agg`:
key `"over_" ++ code` ↦ per-event overspill array. -/
abbrev Overdict : Type := List (String × List ℚ)

/-- Python dict assignment `overdict[k] = v`: replace the value at an
existing key, else append the binding. -/
def odUpdate : Overdict → String → List ℚ → Overdict
  | [], k, v => [(k, v)]
  | (k', v') :: rest, k, v =>
    if k' = k then (k, v) :: rest else (k', v') :: odUpdate rest k v

/-- The column-index dict `idx = {col: i for i, col in enumerate(outcols)}`
built by `_by_event` from `outcols = ['retention', 'claim'] + codes`.
A missing key yields the out-of-range index `2 + tdf.length`
(the source would raise `KeyError`; the theorems never hit this case). -/
def mkIdx (tdf : List Treaty) (s : String) : ℕ :=
  (["retention", "claim"] ++ tdf.map (fun t => String.mk [t.code])).indexOf s

/-- The per-group treaty application of `clever_agg` (reinsurance.py:224-241)
for a resolved treaty `tr`, with `iR = idx['retention']` and
`iC = idx[code]`.  Returns the updated matrix, the per-event `overspill`
array, and `has_over`.  For a `wxlr` treaty neither branch of the source
applies: the matrix is unchanged and `has_over` stays false. -/
def applyGroup (tr : Treaty) (iR iC : ℕ) (data : Mat) :
    Mat × List ℚ × Bool :=
  let capacity := tr.limit - tr.deductible
  match tr.ttype with
  | TreatyType.catxl =>
    let overspill := data.map (fun row => row.getD iR 0 - tr.deductible - capacity)
    let data' := data.map (fun row =>
      let p := apply_treaty1 (row.getD iC 0) (row.getD iR 0) tr.deductible capacity
      (row.set iR p.2).set iC p.1)
    (data', overspill, decide (∃ x ∈ overspill, 0 < x))
  | TreatyType.prop =>
    let overspill := data.map (fun row => row.getD iC 0 - capacity)
    let hasOver := decide (∃ x ∈ overspill, 0 < x)
    let data' :=
      if hasOver then
        data.map (fun row =>
          if 0 < row.getD iC 0 - capacity then
            (row.set iR (row.getD iR 0 + (row.getD iC 0 - tr.limit))).set iC tr.limit
          else row)
      else data
    (data', overspill, hasOver)
  | TreatyType.wxlr => (data, [], false)

/-- One level of the `for key, data in zip(ukeys, datalist)` loop of
`clever_agg` (reinsurance.py:220-243), over (key, matrix) pairs, threading
the overspill dict.  `none` models the exceptions of the source
(an empty key, or a code absent from `treaty_df`). -/
def level_step (tdf : List Treaty) (idx : String → ℕ) :
    List (List Char × Mat) → Overdict →
    Option (List (List Char × Mat) × Overdict)
  | [], od => some ([], od)
  | (key, data) :: rest, od =>
    match key with
    | [] => none
    | code :: newkey =>
      let one : Option (Mat × Overdict) :=
        if code = '.' then some (data, od)
        else
          match tdf.find? (fun t => t.code = code) with
          | none => none
          | some tr =>
            let r := applyGroup tr (idx "retention") (idx (String.mk [code])) data
            some (r.1,
              if r.2.2 then
                odUpdate od ("over_" ++ String.mk [code])
                  (r.2.1.map (fun x => max x 0))
              else od)
      match one with
      | none => none
      | some (data', od') =>
        match level_step tdf idx rest od' with
        | none => none
        | some (rest', od'') => some ((newkey, data') :: rest', od'')

/-- First-occurrence deduplication (auxiliary, structural so that concrete
runs reduce). -/
def uniqAux {α : Type} [DecidableEq α] : List α → List α → List α
  | [], _ => []
  | k :: ks, seen =>
    if k ∈ seen then uniqAux ks seen else k :: uniqAux ks (k :: seen)

/-- The unique keys of a list, in first-occurrence order. -/
def uniqKeys {α : Type} [DecidableEq α] (l : List α) : List α := uniqAux l []

/-- Element-wise sum of two matrices of equal shape. -/
def addMat (a b : Mat) : Mat := List.zipWith (List.zipWith (· + ·)) a b

/-- Element-wise sum of a list of matrices of equal shape. -/
def sumMats : List Mat → Mat
  | [] => []
  | m :: ms => ms.foldl addMat m

/-- Modelled from the spec: `fast_agg2(keys, array)` (imported from
`openquake.baselib.general`, not part of the sources under verification).
Spec §4.3 step 3: “group the now-shorter keys and sum matrices
element-wise for identical keys”.  Unique keys are produced in
first-occurrence order (the spec does not fix an order; none of the
verified claims depends on it). -/
def fast_agg2 (pairs : List (List Char × Mat)) :
    List (List Char) × List Mat :=
  let uk := uniqKeys (pairs.map Prod.fst)
  (uk, uk.map (fun k => sumMats ((pairs.filter (fun p => p.1 = k)).map Prod.snd)))

/-- `clever_agg(ukeys, datalist, treaty_df, idx, overdict, eids)`
(reinsurance.py:196-245), fuelled: the source recursion consumes one key
symbol per level; `none` models both exhausted fuel (the source would
recurse forever / die) and the exceptions modelled in `level_step`.
The `DEBUG` trace of the source produces no result and is omitted. -/
def clever_agg (fuel : ℕ) (ukeys : List (List Char)) (datalist : List Mat)
    (tdf : List Treaty) (idx : String → ℕ) (overdict : Overdict) :
    Option (Mat × Overdict) :=
  match fuel with
  | 0 => none
  | fuel + 1 =>
    if ukeys = [[]] then datalist.head?.map (fun d => (d, overdict))
    else
      match level_step tdf idx (ukeys.zip datalist) overdict with
      | none => none
      | some (pairs, od) =>
        let ks := fast_agg2 pairs
        clever_agg fuel ks.1 ks.2 tdf idx od

/-- The overspill record a single (key, matrix) group produces in one
`clever_agg` level, if any: `(code, positive part of overspill)`.
Derived bookkeeping used to state the overspill claims. -/
def groupOver (tdf : List Treaty) (idx : String → ℕ)
    (p : List Char × Mat) : Option (Char × List ℚ) :=
  match p.1 with
  | [] => none
  | code :: _ =>
    if code = '.' then none
    else
      match tdf.find? (fun t => t.code = code) with
      | none => none
      | some tr =>
        let r := applyGroup tr (idx "retention") (idx (String.mk [code])) p.2
        if r.2.2 then some (code, r.2.1.map (fun x => max x 0)) else none

/-! ## The `_by_event` wrapper -/

/-- One row of the `rbp` per-policy cession table consumed by `_by_event`:
event id, the policy group key, the claim, and the per-treaty cession
columns (a map treaty id ↦ value; only non-catxl columns are read). -/
structure RbpRow : Type where
  event_id : ℕ
  policy_grp : String
  claim : ℚ
  ces : String → ℚ

/-- Sorted insertion (auxiliary for `np.unique`). -/
def insertSorted (x : ℕ) : List ℕ → List ℕ
  | [] => [x]
  | y :: ys => if x ≤ y then x :: y :: ys else y :: insertSorted x ys

/-- `np.unique`: the sorted unique values of a list of event ids. -/
def uniqSorted (l : List ℕ) : List ℕ := (uniqKeys l).foldr insertSorted []

/-- The dense per-event matrix `_by_event` builds for one policy group
(reinsurance.py:294-306).  The zero matrix has one column per `outcols =
['retention', 'claim'] + codes`, but the fill loop
`for i, col in enumerate(inpcols): data[gb.index, i] = gb[col]` writes
the summed claim and the non-catxl cession sums at the *positions of
`inpcols` itself* (`['eid', 'claim'] + non-catxl ids`): the non-catxl
sums are compacted into columns 2, 3, … in catalog order, skipping no
columns for catxl treaties, and the remaining columns stay 0.  (The
columns line up with the treaty columns exactly when no catxl treaty
precedes a non-catxl one.)  Finally
`retention = claim − Σ(columns from 2 on)`. -/
def group_matrix (tdf : List Treaty) (eids : List ℕ) (rows : List RbpRow) :
    Mat :=
  eids.map (fun e =>
    let rs := rows.filter (fun r => r.event_id = e)
    let claim := (rs.map (fun r => r.claim)).sum
    let noncat := (tdf.filter (fun t => ¬ t.ttype = TreatyType.catxl)).map
      (fun t => (rs.map (fun r => r.ces t.id)).sum)
    let ces := noncat ++ List.replicate (tdf.length - noncat.length) (0 : ℚ)
    (claim - ces.sum) :: claim :: ces)

/-- The canonical event ordering of `_by_event`. -/
def by_event_eids (rbp : List RbpRow) : List ℕ :=
  uniqSorted (rbp.map (fun r => r.event_id))

/-- Lexicographic comparison of keys by character code points: the order
in which Python compares the strings that `groupby` sorts by. -/
def ltKey : List Char → List Char → Bool
  | [], [] => false
  | [], _ :: _ => true
  | _ :: _, [] => false
  | c :: cs, d :: ds =>
    if c < d then true else if d < c then false else ltKey cs ds

/-- Sorted insertion of a group key. -/
def insertSortedKey (x : String) : List String → List String
  | [] => [x]
  | y :: ys =>
    if ltKey x.data y.data then x :: y :: ys else y :: insertSortedKey x ys

/-- The policy-group keys of `_by_event`: `rbp.groupby('policy_grp')`
iterates the distinct keys in ascending (string) order. -/
def by_event_grps (rbp : List RbpRow) : List String :=
  (uniqKeys (rbp.map (fun r => r.policy_grp))).foldr insertSortedKey []

/-- The group keys handed to `clever_agg`. -/
def by_event_keys (rbp : List RbpRow) : List (List Char) :=
  (by_event_grps rbp).map (fun s => s.data)

/-- The group matrices handed to `clever_agg`. -/
def by_event_data (tdf : List Treaty) (rbp : List RbpRow) : List Mat :=
  (by_event_grps rbp).map (fun k =>
    group_matrix tdf (by_event_eids rbp) (rbp.filter (fun r => r.policy_grp = k)))

/-- The sanity check of `_by_event` (reinsurance.py:312-316):
`np.testing.assert_allclose(cession + ret, claim)` with the default
relative tolerance `1e-7`: every row must satisfy
`|retention + Σ cessions − claim| ≤ 1e-7·|claim|`. -/
def reconciled (res : Mat) : Prop :=
  ∀ row ∈ res, |row.getD 0 0 + (row.drop 2).sum - row.getD 1 0| ≤
    (1/10000000) * |row.getD 1 0|

instance (res : Mat) : Decidable (reconciled res) := by
  unfold reconciled; infer_instance

/-- `_by_event(rbp, treaty_df)` (reinsurance.py:282-322), restricted to the
computation of the result matrix: build the group matrices, run
`clever_agg`, and apply the reconciliation assertion; an assertion
failure aborts the run (`none`).  The final renaming of columns to
treaty ids produces no numbers and is omitted. -/
def by_event (fuel : ℕ) (rbp : List RbpRow) (tdf : List Treaty) :
    Option (Mat × Overdict) :=
  match clever_agg fuel (by_event_keys rbp) (by_event_data tdf rbp) tdf
      (mkIdx tdf) [] with
  | none => none
  | some (res, od) => if reconciled res then some (res, od) else none

/-! ## List helper lemmas -/

theorem getD_zipWith (f : ℚ → ℚ → ℚ) :
    ∀ (a b : List ℚ) (i : ℕ), i < a.length → i < b.length →
      (List.zipWith f a b).getD i 0 = f (a.getD i 0) (b.getD i 0)
  | [], _, _, h, _ => absurd h (by simp)
  | _ :: _, [], _, _, h => absurd h (by simp)
  | x :: a, y :: b, 0, _, _ => by simp
  | x :: a, y :: b, i + 1, ha, hb => by
    simpa using getD_zipWith f a b i (by simpa using ha) (by simpa using hb)

theorem getD_rep (x : ℚ) : ∀ (n i : ℕ), i < n →
    (List.replicate n x).getD i 0 = x
  | 0, _, h => absurd h (by simp)
  | n + 1, 0, _ => by simp
  | n + 1, i + 1, h => by
    simpa [List.replicate_succ] using getD_rep x n i (by omega)

theorem getD_map_lt {α : Type} (f : α → ℚ) (dflt : α) :
    ∀ (l : List α) (i : ℕ), i < l.length →
      (l.map f).getD i 0 = f (l.getD i dflt)
  | [], _, h => absurd h (by simp)
  | x :: l, 0, _ => by simp
  | x :: l, i + 1, h => by
    simpa using getD_map_lt f dflt l i (by simpa using h)

theorem getD_map_chr {α : Type} (f : α → Char) (dflt : α) (d : Char) :
    ∀ (l : List α) (i : ℕ), i < l.length →
      (l.map f).getD i d = f (l.getD i dflt)
  | [], _, h => absurd h (by simp)
  | x :: l, 0, _ => by simp
  | x :: l, i + 1, h => by
    simpa using getD_map_chr f dflt d l i (by simpa using h)

/-- Conservation of the scalar treaty split when the cession entry is 0. -/
theorem apply_treaty1_conserve (r d c : ℚ) :
    (apply_treaty1 0 r d c).1 + (apply_treaty1 0 r d c).2 = r := by
  unfold apply_treaty1
  split_ifs <;> ring

/-! ## Claim theorems: the treaty-split primitive -/

/-- Claim C2 (confirmed): for all retention r ≥ 0, deductible d ≥ 0 and
capacity c ≥ 0, applied element-wise with the cession entries initially 0,
`apply_treaty` leaves `retention_after + cession_after = r` at every
index. -/
theorem C2_apply_treaty_conservation (retention : List ℚ) (d c : ℚ)
    (hr : ∀ r ∈ retention, 0 ≤ r) (hd : 0 ≤ d) (hc : 0 ≤ c) :
    ∀ i < retention.length,
      ((apply_treaty (List.replicate retention.length 0) retention d c).2).getD i 0 +
      ((apply_treaty (List.replicate retention.length 0) retention d c).1).getD i 0 =
      retention.getD i 0 := by
  intro i hi
  unfold apply_treaty
  rw [getD_zipWith _ _ _ i (by simpa using hi) hi,
      getD_zipWith _ _ _ i (by simpa using hi) hi,
      getD_rep _ _ _ hi]
  rw [add_comm]
  exact apply_treaty1_conserve _ d c

/-- Witness for C2 at a concrete input. -/
theorem C2_witness :
    ((apply_treaty (List.replicate 1 0) [200] 50 100).2).getD 0 0 +
    ((apply_treaty (List.replicate 1 0) [200] 50 100).1).getD 0 0 = (200 : ℚ) := by
  have h := C2_apply_treaty_conservation [200] 50 100
    (by intro r hr; simp at hr; simp [hr]) (by norm_num) (by norm_num) 0 (by simp)
  simpa using h

/-- Claim C3 (confirmed): piecewise behaviour of the treaty split with the
cession entry initially 0: `r ≤ d` keeps retention and gives cession 0;
`d < r ≤ d + c` gives retention `d` and cession `r − d`; `r > d + c`
gives retention `d + (r − d − c)` and cession `c` (saturated).
Nonnegativity of r, d, c is the standing assumption of spec §8. -/
theorem C3_apply_treaty_piecewise (r d c : ℚ)
    (hr : 0 ≤ r) (hd : 0 ≤ d) (hc : 0 ≤ c) :
    (r ≤ d → apply_treaty1 0 r d c = (0, r)) ∧
    (d < r → r ≤ d + c → apply_treaty1 0 r d c = (r - d, d)) ∧
    (d + c < r → apply_treaty1 0 r d c = (c, d + (r - d - c))) := by
  refine ⟨fun h => ?_, fun h1 h2 => ?_, fun h => ?_⟩ <;>
    · unfold apply_treaty1
      split_ifs with h1 h2 <;> first
        | rfl
        | (exfalso; linarith)
        | (congr 1 <;> ring)

/-- Witness for C3: the saturated branch at (r, d, c) = (200, 50, 100). -/
theorem C3_witness : apply_treaty1 0 200 50 100 = (100, 100) := by
  have h := (C3_apply_treaty_piecewise 200 50 100 (by norm_num) (by norm_num)
    (by norm_num)).2.2 (by norm_num)
  rw [h]
  norm_num

/-! ## Claim theorems: per-policy cessions -/

/-- Claim C8 (confirmed): `claim_to_cessions` raises (here: returns `none`,
producing no output) exactly for the policies whose proportional fractions
sum to more than 1; for a fraction sum ≤ 1 the check does not fire. -/
theorem C8_fraction_check (claim : List ℚ) (policy : String → ℚ)
    (tdf : List Treaty) :
    claim_to_cessions claim policy tdf = none ↔
      1 < ((tdf.filter (fun t => t.ttype = TreatyType.prop)).map
            (fun t => policy t.id)).sum := by
  by_cases h : 1 < ((tdf.filter (fun t => t.ttype = TreatyType.prop)).map
      (fun t => policy t.id)).sum
  · simp [claim_to_cessions, h]
  · simp [claim_to_cessions, h]

/-- Claim C9 (confirmed): `build_policy_grp` emits one symbol per treaty in
catalog order: the treaty's code, except at catxl treaties in which the
policy does not participate, which emit the sentinel '.'. -/
theorem C9_build_policy_grp (policy : String → ℚ) (tdf : List Treaty) :
    (build_policy_grp policy tdf).data.length = tdf.length ∧
    ∀ j, j < tdf.length →
      (build_policy_grp policy tdf).data.getD j ' ' =
        (if (tdf.getD j default).ttype = TreatyType.catxl ∧
            policy (tdf.getD j default).id = 0
         then '.' else (tdf.getD j default).code) := by
  constructor
  · simp [build_policy_grp]
  · intro j hj
    show ((tdf.map _).getD j ' ') = _
    rw [getD_map_chr _ default _ tdf j hj]

/-- Witness for C9: a non-participating catxl treaty yields '.'. -/
theorem C9_witness :
    (build_policy_grp (fun _ => 0)
      [⟨"cat1", TreatyType.catxl, 50, 150, 'A'⟩]).data.getD 0 ' ' = '.' := by
  have h := (C9_build_policy_grp (fun _ => 0)
    [⟨"cat1", TreatyType.catxl, 50, 150, 'A'⟩]).2 0 (by norm_num)
  rw [h]
  norm_num

/-! ## Rounding error bounds -/

theorem rhe_err (q : ℚ) : |(rhe q : ℚ) - q| ≤ 1/2 := by
  have hfl : (⌊q⌋ : ℚ) ≤ q := Int.floor_le q
  have hfu : q < (⌊q⌋ : ℚ) + 1 := Int.lt_floor_add_one q
  unfold rhe
  split_ifs with h1 h2 h3 <;> rw [abs_le] <;> push_cast <;> constructor <;> linarith

theorem round6_err (q : ℚ) : |round6 q - q| ≤ 1/2000000 := by
  have h := rhe_err (q * 1000000)
  unfold round6
  have : (rhe (q * 1000000) : ℚ) / 1000000 - q =
      ((rhe (q * 1000000) : ℚ) - q * 1000000) / 1000000 := by ring
  rw [this, abs_div]
  rw [show |(1000000 : ℚ)| = 1000000 by norm_num]
  rw [div_le_iff (by norm_num)]
  linarith

theorem sum_round6_err : ∀ l : List ℚ,
    |(l.map round6).sum - l.sum| ≤ (l.length : ℚ) * (1/2000000)
  | [] => by simp
  | x :: l => by
    have h1 := round6_err x
    have h2 := sum_round6_err l
    have : (((x :: l).map round6).sum - (x :: l).sum) =
        (round6 x - x) + ((l.map round6).sum - l.sum) := by
      simp; ring
    rw [this]
    calc |(round6 x - x) + ((l.map round6).sum - l.sum)|
        ≤ |round6 x - x| + |(l.map round6).sum - l.sum| := abs_add _ _
      _ ≤ 1/2000000 + (l.length : ℚ) * (1/2000000) := by linarith
      _ = ((x :: l).length : ℚ) * (1/2000000) := by
          simp [List.length_cons]; push_cast; ring

/-- The wxlr fold of `claim_to_cessions` leaves the retention array
untouched and appends a zero column per treaty when the policy
participates in none of the wxlr treaties. -/
theorem wxl_fold_inactive (n : ℕ) (policy : String → ℚ) :
    ∀ (wxl : List Treaty) (acc : List (String × List ℚ) × List ℚ),
      (∀ t ∈ wxl, policy t.id = 0) →
      wxl.foldl (wxlStep n policy) acc =
        (acc.1 ++ wxl.map (fun t => (t.id, List.replicate n (0 : ℚ))), acc.2)
  | [], acc, _ => by simp
  | t :: wxl, acc, h => by
    have ht : policy t.id = 0 := h t (by simp)
    have hrest : ∀ t' ∈ wxl, policy t'.id = 0 := fun t' h' => h t' (by simp [h'])
    simp only [List.foldl_cons]
    rw [show wxlStep n policy acc t =
        (acc.1 ++ [(t.id, List.replicate n (0 : ℚ))], acc.2) by
      simp [wxlStep, ht]]
    rw [wxl_fold_inactive n policy wxl _ hrest]
    simp

/-! ## Claim C6: proportional cessions per policy -/

/-- Claim C6 (corrected), counterexample to the claim as stated: with three
proportional treaties of fraction 1/10 each (f = 3/10 ≤ 1) and the claim
array [49/10⁷], every per-treaty cession 49/10⁸ rounds to 0, so the
proportional cessions sum to 0, while C·f = 147/10⁸; the difference
147/10⁸ exceeds the claimed tolerance 10⁻⁶. -/
theorem C6_counterexample :
    claim_to_cessions [49/10000000]
      (fun s => if s = "q1" then 1/10 else if s = "q2" then 1/10
                else if s = "q3" then 1/10 else 0)
      [⟨"q1", TreatyType.prop, 0, 1000, 'a'⟩,
       ⟨"q2", TreatyType.prop, 0, 1000, 'b'⟩,
       ⟨"q3", TreatyType.prop, 0, 1000, 'c'⟩] =
      some ⟨[3/1000000], [5/1000000],
            [("q1", [0]), ("q2", [0]), ("q3", [0])]⟩ ∧
    ¬ (|((0 : ℚ) + 0 + 0) - (49/10000000) * (3/10)| ≤ 1/1000000) := by
  constructor
  · norm_num +decide [claim_to_cessions, wxlStep, round6, rhe]
  · rw [not_le, show ((0 : ℚ) + 0 + 0) - (49/10000000) * (3/10) =
      -(147/100000000) by norm_num, abs_neg, abs_of_nonneg (by norm_num)]
    norm_num

/-- Claim C6 (amended): for a policy that participates in no wxlr treaty
and whose proportional fractions sum to f ≤ 1, `claim_to_cessions`
assigns each proportional treaty the cession `round6 (C · fraction)`,
the retention is `round6 (C · (1 − f))` (within 5·10⁻⁷ of `C · (1 − f)`),
and the proportional cessions sum to `C·f` within `n · 5·10⁻⁷`, where `n`
is the number of proportional treaties (the 10⁻⁶ bound of the original
claim can fail once n ≥ 3). -/
theorem C6_amended (claim : List ℚ) (policy : String → ℚ) (tdf : List Treaty)
    (hsum : ((tdf.filter (fun t => t.ttype = TreatyType.prop)).map
      (fun t => policy t.id)).sum ≤ 1)
    (hwxl : ∀ t ∈ tdf, t.ttype = TreatyType.wxlr → policy t.id = 0) :
    ∃ out, claim_to_cessions claim policy tdf = some out ∧
      (∀ i < claim.length,
        out.retention.getD i 0 =
          round6 (claim.getD i 0 *
            (1 - ((tdf.filter (fun t => t.ttype = TreatyType.prop)).map
              (fun t => policy t.id)).sum)) ∧
        |out.retention.getD i 0 - claim.getD i 0 *
            (1 - ((tdf.filter (fun t => t.ttype = TreatyType.prop)).map
              (fun t => policy t.id)).sum)| ≤ 1/2000000) ∧
      out.cession.take (tdf.filter (fun t => t.ttype = TreatyType.prop)).length =
        (tdf.filter (fun t => t.ttype = TreatyType.prop)).map
          (fun t => (t.id, claim.map (fun x => round6 (x * policy t.id)))) ∧
      (∀ i < claim.length,
        |((tdf.filter (fun t => t.ttype = TreatyType.prop)).map
            (fun t => round6 (claim.getD i 0 * policy t.id))).sum -
          claim.getD i 0 *
            ((tdf.filter (fun t => t.ttype = TreatyType.prop)).map
              (fun t => policy t.id)).sum| ≤
        ((tdf.filter (fun t => t.ttype = TreatyType.prop)).length : ℚ) *
          (1/2000000)) := by
  have hwxl' : ∀ t ∈ tdf.filter (fun t => t.ttype = TreatyType.wxlr),
      policy t.id = 0 := by
    intro t ht
    rw [List.mem_filter] at ht
    exact hwxl t ht.1 (by simpa using ht.2)
  have hfold := wxl_fold_inactive claim.length policy
    (tdf.filter (fun t => t.ttype = TreatyType.wxlr))
    ([], claim.map (fun x => x *
      (1 - ((tdf.filter (fun t => t.ttype = TreatyType.prop)).map
        (fun t => policy t.id)).sum))) hwxl'
  have heq : claim_to_cessions claim policy tdf = some
      { retention := (claim.map (fun x => x *
          (1 - ((tdf.filter (fun t => t.ttype = TreatyType.prop)).map
            (fun t => policy t.id)).sum))).map round6,
        claim := claim.map round6,
        cession := ((tdf.filter (fun t => t.ttype = TreatyType.prop)).map
            (fun t => (t.id, (claim.map (fun x => x * policy t.id)).map round6))) ++
          ((tdf.filter (fun t => t.ttype = TreatyType.wxlr)).map
            (fun t => (t.id, (List.replicate claim.length (0 : ℚ)).map round6))) } := by
    unfold claim_to_cessions
    rw [if_neg (by simpa using not_lt.mpr hsum)]
    simp only [hfold, List.nil_append, List.map_append, List.map_map]
    simp [Function.comp_def]
  refine ⟨_, heq, ?_, ?_, ?_⟩
  · intro i hi
    constructor
    · show ((claim.map _).map round6).getD i 0 = _
      rw [getD_map_lt round6 0 _ i (by simpa using hi),
          getD_map_lt _ 0 claim i hi]
    · show |((claim.map _).map round6).getD i 0 - _| ≤ _
      rw [getD_map_lt round6 0 _ i (by simpa using hi),
          getD_map_lt _ 0 claim i hi]
      exact round6_err _
  · show (_ ++ _ : List (String × List ℚ)).take _ = _
    rw [List.take_left' (by simp)]
    simp [List.map_map, Function.comp]
  · intro i hi
    have key : ((tdf.filter (fun t => t.ttype = TreatyType.prop)).map
        (fun t => round6 (claim.getD i 0 * policy t.id))) =
        (((tdf.filter (fun t => t.ttype = TreatyType.prop)).map
          (fun t => claim.getD i 0 * policy t.id)).map round6) := by
      simp [List.map_map, Function.comp_def]
    have hsum2 : ((tdf.filter (fun t => t.ttype = TreatyType.prop)).map
        (fun t => claim.getD i 0 * policy t.id)).sum =
        claim.getD i 0 * ((tdf.filter (fun t => t.ttype = TreatyType.prop)).map
          (fun t => policy t.id)).sum := by
      rw [← List.sum_map_mul_left]
    have herr := sum_round6_err ((tdf.filter (fun t => t.ttype = TreatyType.prop)).map
      (fun t => claim.getD i 0 * policy t.id))
    rw [key, ← hsum2]
    simpa using herr

/-- Witness for the amended C6: two proportional treaties with fractions
3/10 and 1/5, one inactive wxlr treaty, claim [100]. -/
theorem C6_witness :
    ∃ out, claim_to_cessions [100]
      (fun s => if s = "p1" then 3/10 else if s = "p2" then 1/5 else 0)
      [⟨"p1", TreatyType.prop, 0, 1000, 'a'⟩,
       ⟨"p2", TreatyType.prop, 0, 1000, 'b'⟩,
       ⟨"w1", TreatyType.wxlr, 10, 40, 'c'⟩] = some out ∧
      out.retention.getD 0 0 = 50 := by
  obtain ⟨out, hout, hret, -, -⟩ := C6_amended [100]
    (fun s => if s = "p1" then 3/10 else if s = "p2" then 1/5 else 0)
    [⟨"p1", TreatyType.prop, 0, 1000, 'a'⟩,
     ⟨"p2", TreatyType.prop, 0, 1000, 'b'⟩,
     ⟨"w1", TreatyType.wxlr, 10, 40, 'c'⟩]
    (by norm_num +decide) (by norm_num +decide)
  refine ⟨out, hout, ?_⟩
  have h := (hret 0 (by norm_num)).1
  rw [h]
  norm_num +decide [round6, rhe]

/-! ## Engine invariants: definitions -/

/-- The per-event reconciliation balance of a row
`[retention, claim, cessions…]`: `retention + Σ cessions − claim`. -/
def rowBal (row : Row) : ℚ := row.getD 0 0 + (row.drop 2).sum - row.getD 1 0

/-- The balance of the row of matrix `m` at event index `e`. -/
def matBal (m : Mat) (e : ℕ) : ℚ := rowBal (m.getD e [])

/-- The total balance at event index `e`, summed over all groups. -/
def totBal (pairs : List (List Char × Mat)) (e : ℕ) : ℚ :=
  (pairs.map (fun p => matBal p.2 e)).sum

/-- Shape of a policy-group key after `lv` processed levels: one symbol per
remaining treaty position, each the treaty's code or the sentinel '.'. -/
def KeyShape (codes : List Char) (lv : ℕ) (k : List Char) : Prop :=
  k.length + lv = codes.length ∧
  ∀ i, i < k.length → k.getD i '.' = codes.getD (lv + i) '.' ∨ k.getD i '.' = '.'

/-- Shape of a group matrix after `lv` processed levels: `E` rows of width
`2 + T`, with the cession column of every not-yet-processed catxl treaty
still zero. -/
def MatOK (tdf : List Treaty) (E lv : ℕ) (m : Mat) : Prop :=
  m.length = E ∧ (∀ row ∈ m, row.length = 2 + tdf.length) ∧
  ∀ row ∈ m, ∀ j, lv ≤ j → j < tdf.length →
    (tdf.getD j default).ttype = TreatyType.catxl → row.getD (2 + j) 0 = 0

/-- Invariant of the (key, matrix) pairs at recursion level `lv`. -/
def PairsOK (tdf : List Treaty) (E lv : ℕ)
    (pairs : List (List Char × Mat)) : Prop :=
  ∀ p ∈ pairs, KeyShape (tdf.map (fun t => t.code)) lv p.1 ∧ MatOK tdf E lv p.2

/-! ## More list helpers -/

theorem getD_map' {α β : Type} (f : α → β) (da : α) (db : β) :
    ∀ (l : List α) (i : ℕ), i < l.length → (l.map f).getD i db = f (l.getD i da)
  | [], _, h => absurd h (by simp)
  | x :: l, 0, _ => by simp
  | x :: l, i + 1, h => by
    simpa using getD_map' f da db l i (by simpa using h)

theorem getD_ge {α : Type} (d : α) :
    ∀ (l : List α) (i : ℕ), l.length ≤ i → l.getD i d = d
  | [], _, _ => by simp
  | x :: l, 0, h => absurd h (by simp)
  | x :: l, i + 1, h => by
    simpa using getD_ge d l i (by simpa using h)

theorem getD_mem {α : Type} (d : α) :
    ∀ (l : List α) (i : ℕ), i < l.length → l.getD i d ∈ l
  | [], _, h => absurd h (by simp)
  | x :: l, 0, _ => by simp
  | x :: l, i + 1, h => by
    simpa using Or.inr (getD_mem d l i (by simpa using h))

theorem getD_set_self (d : ℚ) :
    ∀ (l : List ℚ) (i : ℕ) (a : ℚ), i < l.length → (l.set i a).getD i d = a
  | [], _, _, h => absurd h (by simp)
  | x :: l, 0, a, _ => by simp
  | x :: l, i + 1, a, h => by
    simpa using getD_set_self d l i a (by simpa using h)

theorem getD_set_ne (d : ℚ) :
    ∀ (l : List ℚ) (i j : ℕ) (a : ℚ), i ≠ j → (l.set i a).getD j d = l.getD j d
  | [], _, _, _, _ => by simp
  | x :: l, 0, 0, a, h => absurd rfl h
  | x :: l, 0, j + 1, a, _ => by simp
  | x :: l, i + 1, 0, a, _ => by simp
  | x :: l, i + 1, j + 1, a, h => by
    simpa using getD_set_ne d l i j a (fun hij => h (by omega))

theorem drop_set_ge : ∀ (n : ℕ) (l : List ℚ) (i : ℕ) (a : ℚ), n ≤ i →
    (l.set i a).drop n = (l.drop n).set (i - n) a
  | 0, l, i, a, _ => by simp
  | n + 1, [], i, a, _ => by simp
  | n + 1, x :: l, i, a, h => by
    match i, h with
    | i + 1, h =>
      simpa using drop_set_ge n l i a (by omega)

theorem drop_set_lt : ∀ (n : ℕ) (l : List ℚ) (i : ℕ) (a : ℚ), i < n →
    (l.set i a).drop n = l.drop n
  | 0, l, i, a, h => absurd h (by omega)
  | n + 1, [], i, a, _ => by simp
  | n + 1, x :: l, 0, a, _ => by simp
  | n + 1, x :: l, i + 1, a, h => by
    simpa using drop_set_lt n l i a (by omega)

theorem sum_set : ∀ (l : List ℚ) (i : ℕ) (a : ℚ), i < l.length →
    (l.set i a).sum = l.sum - l.getD i 0 + a
  | [], _, _, h => absurd h (by simp)
  | x :: l, 0, a, _ => by simp; ring
  | x :: l, i + 1, a, h => by
    have := sum_set l i a (by simpa using h)
    simp [this]; ring

theorem getD_drop' : ∀ (n : ℕ) (l : List ℚ) (m : ℕ) (d : ℚ),
    (l.drop n).getD m d = l.getD (n + m) d
  | 0, l, m, d => by simp
  | n + 1, [], m, d => by simp
  | n + 1, x :: l, m, d => by
    simpa [Nat.succ_add] using getD_drop' n l m d

/-- Setting a column `iC ≥ 2` shifts the row balance by the delta. -/
theorem rowBal_set2 (row : Row) (i : ℕ) (a : ℚ) (h2 : 2 ≤ i)
    (hlt : i < row.length) :
    rowBal (row.set i a) = rowBal row + a - row.getD i 0 := by
  unfold rowBal
  rw [getD_set_ne 0 row i 0 a (by omega), getD_set_ne 0 row i 1 a (by omega),
      drop_set_ge 2 row i a h2,
      sum_set (row.drop 2) (i - 2) a (by rw [List.length_drop]; omega)]
  rw [getD_drop' 2 row (i - 2) 0, show 2 + (i - 2) = i by omega]
  ring

/-- Setting column 0 (retention) shifts the row balance by the delta. -/
theorem rowBal_set0 (row : Row) (a : ℚ) (hlt : 0 < row.length) :
    rowBal (row.set 0 a) = rowBal row + a - row.getD 0 0 := by
  unfold rowBal
  rw [getD_set_self 0 row 0 a hlt, getD_set_ne 0 row 0 1 a (by omega),
      drop_set_lt 2 row 0 a (by omega)]
  ring

/-! ## Column-index and treaty-lookup lemmas -/

theorem codeStr_ne_retention (c : Char) : String.mk [c] ≠ "retention" := by
  intro h
  have h2 := congrArg (fun s => s.data.length) h
  simp at h2

theorem codeStr_ne_claim (c : Char) : String.mk [c] ≠ "claim" := by
  intro h
  have h2 := congrArg (fun s => s.data.length) h
  simp at h2

theorem codeStr_inj {c d : Char} (h : String.mk [c] = String.mk [d]) : c = d := by
  injection h with h'
  simpa using h'

theorem mkIdx_retention (tdf : List Treaty) : mkIdx tdf "retention" = 0 := by
  unfold mkIdx
  exact List.indexOf_cons_self _ _

/-- `idx[code]` for a single-character code string is 2 plus the position
in the code list. -/
theorem mkIdx_code_eq (tdf : List Treaty) (c : Char) :
    mkIdx tdf (String.mk [c]) =
      ((tdf.map (fun t => t.code)).map (fun d => String.mk [d])).indexOf
        (String.mk [c]) + 2 := by
  unfold mkIdx
  show (("retention" :: "claim" :: _ : List String)).indexOf _ = _
  rw [List.indexOf_cons_ne _ (Ne.symm (codeStr_ne_retention c)),
      List.indexOf_cons_ne _ (Ne.symm (codeStr_ne_claim c)),
      List.map_map]
  rfl

theorem indexOf_codeStr :
    ∀ (codes : List Char) (j : ℕ), j < codes.length → codes.Nodup →
      (codes.map (fun d => String.mk [d])).indexOf
        (String.mk [codes.getD j ' ']) = j
  | [], _, h, _ => absurd h (by simp)
  | c :: codes, 0, _, _ => by
    simpa using List.indexOf_cons_self _ _
  | c :: codes, j + 1, h, hnd => by
    have hj : j < codes.length := by simpa using h
    have hmem : codes.getD j ' ' ∈ codes := getD_mem ' ' codes j hj
    have hne : String.mk [c] ≠ String.mk [codes.getD j ' '] := by
      intro he
      rw [codeStr_inj he] at hnd
      exact (List.nodup_cons.mp hnd).1 hmem
    simp only [List.getD_cons_succ, List.map_cons]
    rw [List.indexOf_cons_ne _ hne]
    rw [indexOf_codeStr codes j hj (List.nodup_cons.mp hnd).2]

/-- With distinct codes, `idx[codes[lv]] = 2 + lv`. -/
theorem mkIdx_code (tdf : List Treaty) (lv : ℕ)
    (h : lv < tdf.length) (hnd : (tdf.map (fun t => t.code)).Nodup) :
    mkIdx tdf (String.mk [(tdf.map (fun t => t.code)).getD lv ' ']) = 2 + lv := by
  rw [mkIdx_code_eq, indexOf_codeStr _ lv (by simpa using h) hnd]
  omega

/-- `treaty_df.loc[code]` at the code of position `lv`: with distinct
codes, `find?` returns exactly the treaty at position `lv`. -/
theorem find?_code :
    ∀ (tdf : List Treaty) (lv : ℕ), lv < tdf.length →
      ((tdf.map (fun t => t.code)).Nodup) →
      tdf.find? (fun t => t.code = (tdf.map (fun t => t.code)).getD lv ' ') =
        some (tdf.getD lv default)
  | [], _, h, _ => absurd h (by simp)
  | t :: tdf, 0, _, _ => by
    apply List.find?_cons_of_pos
    simp
  | t :: tdf, lv + 1, h, hnd => by
    have hlv : lv < tdf.length := by simpa using h
    have hmem : (tdf.map (fun t => t.code)).getD lv ' ' ∈
        tdf.map (fun t => t.code) :=
      getD_mem ' ' _ lv (by simpa using hlv)
    have hne : t.code ≠ (tdf.map (fun t => t.code)).getD lv ' ' := by
      intro he
      rw [List.map_cons, List.nodup_cons] at hnd
      rw [← he] at hmem
      exact hnd.1 hmem
    simp only [List.map_cons, List.getD_cons_succ, List.getD_cons_succ]
    rw [List.find?_cons_of_neg _ (by simpa using hne)]
    have := find?_code tdf lv hlv (by
      rw [List.map_cons, List.nodup_cons] at hnd
      exact hnd.2)
    simpa using this

/-! ## The per-row action of `applyGroup` -/

/-- The action of `applyGroup` on a single event row. -/
def groupRowFn (tr : Treaty) (iR iC : ℕ) (row : Row) : Row :=
  match tr.ttype with
  | TreatyType.catxl =>
    let p := apply_treaty1 (row.getD iC 0) (row.getD iR 0) tr.deductible
      (tr.limit - tr.deductible)
    (row.set iR p.2).set iC p.1
  | TreatyType.prop =>
    if 0 < row.getD iC 0 - (tr.limit - tr.deductible) then
      (row.set iR (row.getD iR 0 + (row.getD iC 0 - tr.limit))).set iC tr.limit
    else row
  | TreatyType.wxlr => row

/-- `applyGroup` acts row-wise by `groupRowFn`. -/
theorem applyGroup_fst (tr : Treaty) (iR iC : ℕ) (data : Mat) :
    (applyGroup tr iR iC data).1 = data.map (groupRowFn tr iR iC) := by
  unfold applyGroup groupRowFn
  match htr : tr.ttype with
  | TreatyType.catxl => simp
  | TreatyType.wxlr => simp
  | TreatyType.prop =>
    simp only
    split_ifs with h
    · rfl
    · rw [decide_eq_true_eq] at h
      have hmap : data.map (fun row =>
          if 0 < row.getD iC 0 - (tr.limit - tr.deductible) then
            (row.set iR (row.getD iR 0 + (row.getD iC 0 - tr.limit))).set iC
              tr.limit
          else row) = data := by
        conv_rhs => rw [← List.map_id data]
        apply List.map_congr_left
        intro row hrow
        rw [if_neg]
        · rfl
        · intro hpos
          exact h ⟨row.getD iC 0 - (tr.limit - tr.deductible),
            List.mem_map_of_mem _ hrow, hpos⟩
      exact hmap.symm

/-- `groupRowFn` preserves the row length. -/
theorem groupRowFn_length (tr : Treaty) (iR iC : ℕ) (row : Row) :
    (groupRowFn tr iR iC row).length = row.length := by
  unfold groupRowFn
  match tr.ttype with
  | TreatyType.catxl => simp
  | TreatyType.prop => split_ifs <;> simp
  | TreatyType.wxlr => rfl

/-- `groupRowFn` preserves every column other than `iR` and `iC`. -/
theorem groupRowFn_other (tr : Treaty) (iR iC : ℕ) (row : Row) (c : ℕ)
    (hcR : c ≠ iR) (hcC : c ≠ iC) :
    (groupRowFn tr iR iC row).getD c 0 = row.getD c 0 := by
  unfold groupRowFn
  match tr.ttype with
  | TreatyType.catxl =>
    simp only
    rw [getD_set_ne 0 _ iC c _ (Ne.symm hcC), getD_set_ne 0 _ iR c _ (Ne.symm hcR)]
  | TreatyType.prop =>
    simp only
    split_ifs with h
    · rw [getD_set_ne 0 _ iC c _ (Ne.symm hcC), getD_set_ne 0 _ iR c _ (Ne.symm hcR)]
    · rfl
  | TreatyType.wxlr => rfl

/-- `groupRowFn` preserves the row balance, with `iR = 0`, `2 ≤ iC` within
the row, and for catxl treaties a zero cession entry. -/
theorem groupRowFn_balance (tr : Treaty) (iC : ℕ) (row : Row)
    (hiC2 : 2 ≤ iC) (hiC : iC < row.length)
    (hz : tr.ttype = TreatyType.catxl → row.getD iC 0 = 0) :
    rowBal (groupRowFn tr 0 iC row) = rowBal row := by
  have hlen0 : 0 < row.length := by omega
  unfold groupRowFn
  match htr : tr.ttype with
  | TreatyType.catxl =>
    simp only
    rw [hz htr]
    have hcons := apply_treaty1_conserve (row.getD 0 0) tr.deductible
      (tr.limit - tr.deductible)
    rw [rowBal_set2 _ iC _ hiC2 (by simpa using hiC),
        rowBal_set0 _ _ hlen0,
        getD_set_ne 0 row 0 iC _ (by omega)]
    rw [hz htr]
    linarith
  | TreatyType.prop =>
    simp only
    split_ifs with h
    · rw [rowBal_set2 _ iC _ hiC2 (by simpa using hiC),
          rowBal_set0 _ _ hlen0,
          getD_set_ne 0 row 0 iC _ (by omega)]
      ring
    · rfl
  | TreatyType.wxlr => rfl

/-! ## Level-step preservation -/

theorem getD_default_eq {α : Type} :
    ∀ (l : List α) (i : ℕ) (d d' : α), i < l.length → l.getD i d = l.getD i d'
  | [], _, _, _, h => absurd h (by simp)
  | x :: l, 0, _, _, _ => by simp
  | x :: l, i + 1, d, d', h => by
    simpa using getD_default_eq l i d d' (by simpa using h)

theorem KeyShape_tail (codes : List Char) (lv : ℕ) (c : Char) (k : List Char)
    (h : KeyShape codes lv (c :: k)) : KeyShape codes (lv + 1) k := by
  obtain ⟨hlen, hch⟩ := h
  constructor
  · simp at hlen; omega
  · intro i hi
    have h2 := hch (i + 1) (by simpa using Nat.succ_lt_succ hi)
    rw [show lv + 1 + i = lv + (i + 1) by omega]
    simpa using h2

theorem KeyShape_head (codes : List Char) (lv : ℕ) (c : Char) (k : List Char)
    (h : KeyShape codes lv (c :: k)) (hc : c ≠ '.') :
    c = codes.getD lv ' ' ∧ lv < codes.length := by
  obtain ⟨hlen, hch⟩ := h
  have hlv : lv < codes.length := by simp at hlen; omega
  have h0 := hch 0 (by simp)
  simp only [List.getD_cons_zero, Nat.add_zero] at h0
  rcases h0 with h0 | h0
  · exact ⟨h0.trans (getD_default_eq codes lv '.' ' ' hlv), hlv⟩
  · exact absurd h0 hc

theorem MatOK_mono (tdf : List Treaty) (E lv : ℕ) (m : Mat)
    (h : MatOK tdf E lv m) : MatOK tdf E (lv + 1) m :=
  ⟨h.1, h.2.1, fun row hrow j hj hjT hcat =>
    h.2.2 row hrow j (by omega) hjT hcat⟩

theorem matBal_map (g : Row → Row) (data : Mat) (e : ℕ)
    (hg : ∀ row ∈ data, rowBal (g row) = rowBal row) :
    matBal (data.map g) e = matBal data e := by
  unfold matBal
  by_cases he : e < data.length
  · rw [getD_map' g [] [] data e he]
    exact hg _ (getD_mem [] data e he)
  · rw [getD_ge [] _ e (by simpa using not_lt.mp he),
        getD_ge [] data e (not_lt.mp he)]

theorem totBal_cons (k : List Char) (m : Mat)
    (rest : List (List Char × Mat)) (e : ℕ) :
    totBal ((k, m) :: rest) e = matBal m e + totBal rest e := by
  simp [totBal]

/-- One level of `clever_agg` preserves the invariants, the number of
groups, the per-event total balance, and every group's claim column. -/
theorem level_step_ok (tdf : List Treaty) (E : ℕ)
    (hnd : (tdf.map (fun t => t.code)).Nodup) :
    ∀ (pairs : List (List Char × Mat)) (lv : ℕ) (od : Overdict)
      (pairs' : List (List Char × Mat)) (od' : Overdict),
      PairsOK tdf E lv pairs →
      level_step tdf (mkIdx tdf) pairs od = some (pairs', od') →
      PairsOK tdf E (lv + 1) pairs' ∧
      pairs'.length = pairs.length ∧
      (∀ e, totBal pairs' e = totBal pairs e) ∧
      (∀ i, ((pairs'.getD i ([], [])).2).map (fun row => row.getD 1 0) =
            ((pairs.getD i ([], [])).2).map (fun row => row.getD 1 0)) := by
  intro pairs
  induction pairs with
  | nil =>
    intro lv od pairs' od' _ h
    simp only [level_step, Option.some.injEq, Prod.mk.injEq] at h
    obtain ⟨h1, _⟩ := h
    subst h1
    exact ⟨by intro p hp; simp at hp, rfl, fun e => rfl, fun i => rfl⟩
  | cons hd rest ih =>
    intro lv od pairs' od' hok h
    obtain ⟨key, data⟩ := hd
    match key with
    | [] => simp [level_step] at h
    | c :: k' =>
      have hokHead := hok (c :: k', data) (by simp)
      have hokRest : PairsOK tdf E lv rest := fun p hp => hok p (by simp [hp])
      simp only [level_step] at h
      split at h
      · exact absurd h (by simp)
      · rename_i one data' od₁ hone
        split at h
        · exact absurd h (by simp)
        · rename_i rest' od'' hrest
          simp only [Option.some.injEq, Prod.mk.injEq] at h
          obtain ⟨hpairs', hod'⟩ := h
          have hIH := ih lv od₁ rest' od'' hokRest hrest
          -- identify data' from hone
          split at hone
          · -- sentinel '.is inert
            rename_i hc
            simp only [Option.some.injEq, Prod.mk.injEq] at hone
            obtain ⟨hdata', _⟩ := hone
            subst hpairs'
            refine ⟨?_, by simpa using hIH.2.1, ?_, ?_⟩
            · intro p hp
              rcases List.mem_cons.mp hp with hp | hp
              · subst hp
                rw [← hdata']
                exact ⟨KeyShape_tail _ lv c k' hokHead.1,
                  MatOK_mono tdf E lv data hokHead.2⟩
              · exact hIH.1 p hp
            · intro e
              rw [totBal_cons, totBal_cons, hIH.2.2.1 e, ← hdata']
            · intro i
              match i with
              | 0 => simp [← hdata']
              | i + 1 => simpa using hIH.2.2.2 i
          · -- a real treaty code is applied via applyGroup
            rename_i hc
            split at hone
            · exact absurd hone (by simp)
            · rename_i tr hfind
              simp only [Option.some.injEq, Prod.mk.injEq] at hone
              obtain ⟨hdata', _⟩ := hone
              obtain ⟨hcode, hlvC⟩ := KeyShape_head _ lv c k' hokHead.1 hc
              have hlvT : lv < tdf.length := by simpa using hlvC
              rw [hcode] at hfind
              have htr : tr = tdf.getD lv default :=
                Option.some.inj (hfind.symm.trans (find?_code tdf lv hlvT hnd))
              have hidxR : mkIdx tdf "retention" = 0 := mkIdx_retention tdf
              have hidxC : mkIdx tdf (String.mk [c]) = 2 + lv := by
                rw [hcode]; exact mkIdx_code tdf lv hlvT hnd
              rw [hidxR, hidxC, htr, applyGroup_fst] at hdata'
              obtain ⟨hmlen, hmrows, hmzero⟩ := hokHead.2
              -- facts about the mapped matrix
              have hbal : ∀ row ∈ data,
                  rowBal (groupRowFn (tdf.getD lv default) 0 (2 + lv) row) =
                    rowBal row := by
                intro row hrow
                exact groupRowFn_balance _ (2 + lv) row (by omega)
                  (by rw [hmrows row hrow]; omega)
                  (fun hcat => hmzero row hrow lv (le_refl lv) hlvT hcat)
              subst hpairs'
              refine ⟨?_, by simpa using hIH.2.1, ?_, ?_⟩
              · intro p hp
                rcases List.mem_cons.mp hp with hp | hp
                · subst hp
                  rw [← hdata']
                  refine ⟨KeyShape_tail _ lv c k' hokHead.1, ?_, ?_, ?_⟩
                  · simpa using hmlen
                  · intro row hrow
                    rw [List.mem_map] at hrow
                    obtain ⟨row0, hrow0, hrow0e⟩ := hrow
                    rw [← hrow0e, groupRowFn_length]
                    exact hmrows row0 hrow0
                  · intro row hrow j hj hjT hcat
                    rw [List.mem_map] at hrow
                    obtain ⟨row0, hrow0, hrow0e⟩ := hrow
                    rw [← hrow0e,
                        groupRowFn_other _ 0 (2 + lv) row0 (2 + j) (by omega)
                          (by omega)]
                    exact hmzero row0 hrow0 j (by omega) hjT hcat
                · exact hIH.1 p hp
              · intro e
                rw [totBal_cons, totBal_cons, hIH.2.2.1 e, ← hdata',
                    matBal_map _ data e hbal]
              · intro i
                match i with
                | 0 =>
                  simp only [List.getD_cons_zero, ← hdata']
                  rw [List.map_map]
                  apply List.map_congr_left
                  intro row hrow
                  exact groupRowFn_other _ 0 (2 + lv) row 1 (by omega) (by omega)
                | i + 1 => simpa using hIH.2.2.2 i

/-! ## Summation of matrices -/

theorem getD_zipWith' {α β γ : Type} (f : α → β → γ) (da : α) (db : β) (dc : γ) :
    ∀ (a : List α) (b : List β) (i : ℕ), i < a.length → i < b.length →
      (List.zipWith f a b).getD i dc = f (a.getD i da) (b.getD i db)
  | [], _, _, h, _ => absurd h (by simp)
  | _ :: _, [], _, _, h => absurd h (by simp)
  | x :: a, y :: b, 0, _, _ => by simp
  | x :: a, y :: b, i + 1, ha, hb => by
    simpa using getD_zipWith' f da db dc a b i (by simpa using ha) (by simpa using hb)

theorem getD_zipWith_add_eqlen (r s : List ℚ) (i : ℕ)
    (h : r.length = s.length) :
    (List.zipWith (· + ·) r s).getD i 0 = r.getD i 0 + s.getD i 0 := by
  by_cases hi : i < r.length
  · exact getD_zipWith' (· + ·) 0 0 0 r s i hi (h ▸ hi)
  · rw [getD_ge 0 _ i (by rw [List.length_zipWith]; omega),
        getD_ge 0 r i (by omega), getD_ge 0 s i (by omega)]
    ring

theorem drop_zipWith_add : ∀ (n : ℕ) (r s : List ℚ),
    (List.zipWith (· + ·) r s).drop n =
      List.zipWith (· + ·) (r.drop n) (s.drop n)
  | 0, _, _ => by simp
  | n + 1, [], s => by simp
  | n + 1, x :: r, [] => by simp
  | n + 1, x :: r, y :: s => by simpa using drop_zipWith_add n r s

theorem sum_zipWith_add : ∀ (r s : List ℚ), r.length = s.length →
    (List.zipWith (· + ·) r s).sum = r.sum + s.sum
  | [], [], _ => by simp
  | [], _ :: _, h => absurd h (by simp)
  | _ :: _, [], h => absurd h (by simp)
  | x :: r, y :: s, h => by
    have := sum_zipWith_add r s (by simpa using h)
    simp [this]; ring

theorem rowBal_add (r s : Row) (h : r.length = s.length) :
    rowBal (List.zipWith (· + ·) r s) = rowBal r + rowBal s := by
  unfold rowBal
  rw [getD_zipWith_add_eqlen r s 0 h, getD_zipWith_add_eqlen r s 1 h,
      drop_zipWith_add, sum_zipWith_add _ _ (by simp [h])]
  ring

theorem MatOK_addMat (tdf : List Treaty) (E lv : ℕ) (a b : Mat)
    (ha : MatOK tdf E lv a) (hb : MatOK tdf E lv b) :
    MatOK tdf E lv (addMat a b) := by
  obtain ⟨haE, haR, haZ⟩ := ha
  obtain ⟨hbE, hbR, hbZ⟩ := hb
  refine ⟨by simp [addMat, haE, hbE], ?_, ?_⟩
  · intro row hrow
    rw [List.mem_iff_getElem] at hrow
    obtain ⟨e, he, hrow⟩ := hrow
    have heE : e < a.length := by
      simp [addMat, List.length_zipWith, haE, hbE] at he
      omega
    have : row = List.zipWith (· + ·) (a.getD e []) (b.getD e []) := by
      rw [← hrow, ← List.getD_eq_getElem _ [] he]
      exact getD_zipWith' _ [] [] [] a b e heE (by omega)
    rw [this, List.length_zipWith,
        haR _ (getD_mem [] a e heE),
        hbR _ (getD_mem [] b e (by omega))]
    simp
  · intro row hrow j hj hjT hcat
    rw [List.mem_iff_getElem] at hrow
    obtain ⟨e, he, hrow⟩ := hrow
    have heE : e < a.length := by
      simp [addMat, List.length_zipWith, haE, hbE] at he
      omega
    have hrw : row = List.zipWith (· + ·) (a.getD e []) (b.getD e []) := by
      rw [← hrow, ← List.getD_eq_getElem _ [] he]
      exact getD_zipWith' _ [] [] [] a b e heE (by omega)
    rw [hrw, getD_zipWith_add_eqlen _ _ _ (by
        rw [haR _ (getD_mem [] a e heE), hbR _ (getD_mem [] b e (by omega))]),
      haZ _ (getD_mem [] a e heE) j hj hjT hcat,
      hbZ _ (getD_mem [] b e (by omega)) j hj hjT hcat]
    ring

theorem matBal_addMat (tdf : List Treaty) (E lv : ℕ) (a b : Mat) (e : ℕ)
    (ha : MatOK tdf E lv a) (hb : MatOK tdf E lv b) :
    matBal (addMat a b) e = matBal a e + matBal b e := by
  obtain ⟨haE, haR, _⟩ := ha
  obtain ⟨hbE, hbR, _⟩ := hb
  unfold matBal
  by_cases he : e < E
  · rw [show (addMat a b).getD e [] =
        List.zipWith (· + ·) (a.getD e []) (b.getD e []) from
      getD_zipWith' _ [] [] [] a b e (by omega) (by omega)]
    exact rowBal_add _ _ (by
      rw [haR _ (getD_mem [] a e (by omega)), hbR _ (getD_mem [] b e (by omega))])
  · rw [getD_ge [] _ e (by simp [addMat, List.length_zipWith]; omega),
        getD_ge [] a e (by omega), getD_ge [] b e (by omega)]
    simp [rowBal]

theorem foldl_addMat_MatOK (tdf : List Treaty) (E lv : ℕ) :
    ∀ (ms : List Mat) (m : Mat), MatOK tdf E lv m →
      (∀ x ∈ ms, MatOK tdf E lv x) → MatOK tdf E lv (ms.foldl addMat m)
  | [], m, hm, _ => hm
  | x :: ms, m, hm, hms => by
    simp only [List.foldl_cons]
    exact foldl_addMat_MatOK tdf E lv ms (addMat m x)
      (MatOK_addMat tdf E lv m x hm (hms x (by simp)))
      (fun y hy => hms y (by simp [hy]))

theorem foldl_addMat_matBal (tdf : List Treaty) (E lv : ℕ) :
    ∀ (ms : List Mat) (m : Mat) (e : ℕ), MatOK tdf E lv m →
      (∀ x ∈ ms, MatOK tdf E lv x) →
      matBal (ms.foldl addMat m) e =
        matBal m e + (ms.map (fun x => matBal x e)).sum
  | [], m, e, _, _ => by simp
  | x :: ms, m, e, hm, hms => by
    simp only [List.foldl_cons, List.map_cons, List.sum_cons]
    rw [foldl_addMat_matBal tdf E lv ms (addMat m x) e
      (MatOK_addMat tdf E lv m x hm (hms x (by simp)))
      (fun y hy => hms y (by simp [hy]))]
    rw [matBal_addMat tdf E lv m x e hm (hms x (by simp))]
    ring

theorem sumMats_MatOK (tdf : List Treaty) (E lv : ℕ) (L : List Mat)
    (hne : L ≠ []) (hL : ∀ x ∈ L, MatOK tdf E lv x) :
    MatOK tdf E lv (sumMats L) := by
  match L, hne with
  | m :: ms, _ =>
    exact foldl_addMat_MatOK tdf E lv ms m (hL m (by simp))
      (fun y hy => hL y (by simp [hy]))

theorem sumMats_matBal (tdf : List Treaty) (E lv : ℕ) (L : List Mat) (e : ℕ)
    (hL : ∀ x ∈ L, MatOK tdf E lv x) :
    matBal (sumMats L) e = (L.map (fun x => matBal x e)).sum := by
  match L with
  | [] => simp [sumMats, matBal, rowBal]
  | m :: ms =>
    show matBal (ms.foldl addMat m) e = _
    rw [foldl_addMat_matBal tdf E lv ms m e (hL m (by simp))
      (fun y hy => hL y (by simp [hy]))]
    simp

/-! ## Re-aggregation by key: `fast_agg2` -/

/-- Recursive characterization of first-occurrence deduplication. -/
def uniqRec {α : Type} [DecidableEq α] : List α → List α
  | [] => []
  | k :: ks => k :: uniqRec (ks.filter (fun x => x ≠ k))
termination_by l => l.length
decreasing_by
  simpa using Nat.lt_succ_of_le (List.length_filter_le _ ks)

theorem uniqRec_nil {α : Type} [DecidableEq α] : uniqRec ([] : List α) = [] := by
  rw [uniqRec.eq_def]

theorem uniqRec_cons {α : Type} [DecidableEq α] (k : α) (ks : List α) :
    uniqRec (k :: ks) = k :: uniqRec (ks.filter (fun x => x ≠ k)) := by
  rw [uniqRec.eq_def]

theorem filter_fst_comm {α β : Type} [DecidableEq α] (k0 : α) :
    ∀ (l : List (α × β)),
      (l.map Prod.fst).filter (fun x => x ≠ k0) =
        (l.filter (fun p => p.1 ≠ k0)).map Prod.fst
  | [] => rfl
  | p :: l => by
    rw [List.map_cons, List.filter_cons, List.filter_cons]
    by_cases h : p.1 = k0
    · rw [if_neg (by simp [h]), if_neg (by simp [h])]
      exact filter_fst_comm k0 l
    · rw [if_pos (by simp [h]), if_pos (by simp [h]), List.map_cons,
          filter_fst_comm k0 l]

theorem uniqAux_eq {α : Type} [DecidableEq α] :
    ∀ (l : List α) (seen : List α),
      uniqAux l seen = uniqRec (l.filter (fun x => x ∉ seen))
  | [], seen => by simp [uniqAux, uniqRec_nil]
  | k :: ks, seen => by
    by_cases hk : k ∈ seen
    · rw [show uniqAux (k :: ks) seen = uniqAux ks seen from by
        simp [uniqAux, hk]]
      rw [uniqAux_eq ks seen]
      congr 1
      rw [List.filter_cons]
      simp [hk]
    · rw [show uniqAux (k :: ks) seen = k :: uniqAux ks (k :: seen) from by
        simp [uniqAux, hk]]
      rw [uniqAux_eq ks (k :: seen)]
      rw [List.filter_cons]
      rw [if_pos (show (decide (k ∉ seen)) = true by simp [hk])]
      rw [uniqRec_cons]
      congr 1
      rw [List.filter_filter]
      congr 1
      apply List.filter_congr
      intro x _
      by_cases h1 : x = k <;> by_cases h2 : x ∈ seen <;> simp [h1, h2]

theorem uniqKeys_eq_uniqRec {α : Type} [DecidableEq α] (l : List α) :
    uniqKeys l = uniqRec l := by
  unfold uniqKeys
  rw [uniqAux_eq l []]
  congr 1
  exact List.filter_eq_self.mpr (by simp)

theorem uniqRec_subset {α : Type} [DecidableEq α] :
    ∀ (l : List α) (x : α), x ∈ uniqRec l → x ∈ l
  | [], x, h => by simpa [uniqRec_nil] using h
  | k :: ks, x, h => by
    rw [uniqRec_cons] at h
    rcases List.mem_cons.mp h with h | h
    · simp [h]
    · have := uniqRec_subset _ x h
      rw [List.mem_filter] at this
      simp [this.1]
termination_by l => l.length
decreasing_by
  simpa using Nat.lt_succ_of_le (List.length_filter_le _ ks)

/-- Summing fiber-wise over the unique keys equals summing over the list:
the partition property of re-aggregation by key. -/
theorem sum_fiber {α β : Type} [DecidableEq α] (f : α × β → ℚ) :
    ∀ (l : List (α × β)),
      ((uniqRec (l.map Prod.fst)).map
        (fun k => ((l.filter (fun p => p.1 = k)).map f).sum)).sum =
      (l.map f).sum
  | [] => by simp [uniqRec_nil]
  | (k0, m0) :: rest => by
    have hcomm : (rest.map Prod.fst).filter (fun x => x ≠ k0) =
        (rest.filter (fun p => p.1 ≠ k0)).map Prod.fst :=
      filter_fst_comm k0 rest
    have hperm : List.Perm
        ((rest.filter (fun p => p.1 = k0)).map f ++
          (rest.filter (fun p => p.1 ≠ k0)).map f)
        (rest.map f) := by
      have h1 : rest.filter (fun p => decide (p.1 ≠ k0)) =
          rest.filter (fun p => !(decide (p.1 = k0))) := by
        apply List.filter_congr
        intro x _
        by_cases h : x.1 = k0 <;> simp [h]
      rw [h1, ← List.map_append]
      exact (List.filter_append_perm _ rest).map f
    have hmid : ∀ k, k ∈ uniqRec ((rest.filter (fun p => p.1 ≠ k0)).map Prod.fst) →
        (((k0, m0) :: rest).filter (fun p => p.1 = k)).map f =
          (((rest.filter (fun p => p.1 ≠ k0)).filter (fun p => p.1 = k)).map f) := by
      intro k hk
      have hkmem := uniqRec_subset _ k hk
      rw [List.mem_map] at hkmem
      obtain ⟨p, hp, hpk⟩ := hkmem
      rw [List.mem_filter] at hp
      have hkk0 : k ≠ k0 := by
        rw [← hpk]
        simpa using hp.2
      congr 1
      rw [List.filter_cons]
      simp only [show (decide (k0 = k)) = false from by simp [Ne.symm hkk0],
        Bool.false_eq_true, if_neg]
      rw [List.filter_filter]
      apply List.filter_congr
      intro x _
      by_cases h : x.1 = k <;> simp [h, hkk0]
    calc ((uniqRec (((k0, m0) :: rest).map Prod.fst)).map
          (fun k => ((((k0, m0) :: rest).filter (fun p => p.1 = k)).map f).sum)).sum
        = ((((k0, m0) :: rest).filter (fun p => p.1 = k0)).map f).sum +
          ((uniqRec ((rest.map Prod.fst).filter (fun x => x ≠ k0))).map
            (fun k => ((((k0, m0) :: rest).filter (fun p => p.1 = k)).map f).sum)).sum := by
          rw [List.map_cons, uniqRec_cons]
          simp
      _ = (f (k0, m0) + ((rest.filter (fun p => p.1 = k0)).map f).sum) +
          ((uniqRec ((rest.filter (fun p => p.1 ≠ k0)).map Prod.fst)).map
            (fun k => (((rest.filter (fun p => p.1 ≠ k0)).filter
              (fun p => p.1 = k)).map f).sum)).sum := by
          congr 1
          · rw [List.filter_cons]
            simp
          · rw [hcomm]
            exact congrArg List.sum (List.map_congr_left
              (fun k hk => congrArg List.sum (hmid k hk)))
      _ = (f (k0, m0) + ((rest.filter (fun p => p.1 = k0)).map f).sum) +
          ((rest.filter (fun p => p.1 ≠ k0)).map f).sum := by
          rw [sum_fiber f (rest.filter (fun p => p.1 ≠ k0))]
      _ = f (k0, m0) + (rest.map f).sum := by
          rw [add_assoc, ← List.sum_append, hperm.sum_eq]
      _ = (((k0, m0) :: rest).map f).sum := by simp
termination_by l => l.length
decreasing_by
  simpa using Nat.lt_succ_of_le (List.length_filter_le _ rest)

theorem zip_map_self {α β : Type} : ∀ (l : List α) (g : α → β),
    l.zip (l.map g) = l.map (fun k => (k, g k))
  | [], _ => rfl
  | x :: l, g => by simp [zip_map_self l g]

theorem uniqKeys_subset {α : Type} [DecidableEq α] (l : List α) (x : α)
    (h : x ∈ uniqKeys l) : x ∈ l := by
  rw [uniqKeys_eq_uniqRec] at h
  exact uniqRec_subset l x h

/-- Re-aggregation by `fast_agg2` preserves the invariants and the
per-event total balance. -/
theorem fast_agg2_ok (tdf : List Treaty) (E lv : ℕ)
    (pairs : List (List Char × Mat)) (hok : PairsOK tdf E lv pairs) :
    PairsOK tdf E lv ((fast_agg2 pairs).1.zip (fast_agg2 pairs).2) ∧
    (fast_agg2 pairs).1.length = (fast_agg2 pairs).2.length ∧
    (∀ e, totBal ((fast_agg2 pairs).1.zip (fast_agg2 pairs).2) e =
      totBal pairs e) := by
  have hmemk : ∀ k ∈ uniqKeys (pairs.map Prod.fst),
      ∃ p ∈ pairs, p.1 = k := by
    intro k hk
    have := uniqKeys_subset _ k hk
    rw [List.mem_map] at this
    obtain ⟨p, hp, hpk⟩ := this
    exact ⟨p, hp, hpk⟩
  have hfilterOK : ∀ (k : List Char),
      ∀ x ∈ (pairs.filter (fun p => p.1 = k)).map Prod.snd,
        MatOK tdf E lv x := by
    intro k x hx
    rw [List.mem_map] at hx
    obtain ⟨q, hq, hqx⟩ := hx
    rw [List.mem_filter] at hq
    exact hqx ▸ (hok q hq.1).2
  have hzip : (fast_agg2 pairs).1.zip ((fast_agg2 pairs).2) =
      (uniqKeys (pairs.map Prod.fst)).map (fun k =>
        (k, sumMats ((pairs.filter (fun p => p.1 = k)).map Prod.snd))) := by
    unfold fast_agg2
    exact zip_map_self _ _
  refine ⟨?_, by simp [fast_agg2], ?_⟩
  · intro p hp
    rw [hzip, List.mem_map] at hp
    obtain ⟨k, hk, hkp⟩ := hp
    obtain ⟨q, hq, hqk⟩ := hmemk k hk
    constructor
    · rw [← hkp]
      exact hqk ▸ (hok q hq).1
    · rw [← hkp]
      refine sumMats_MatOK tdf E lv _ ?_ (hfilterOK k)
      intro hempty
      have hqmem : q.2 ∈ (pairs.filter (fun p => p.1 = k)).map Prod.snd :=
        List.mem_map_of_mem _ (List.mem_filter.mpr ⟨hq, by simp [hqk]⟩)
      rw [hempty] at hqmem
      simp at hqmem
  · intro e
    rw [hzip]
    unfold totBal
    rw [List.map_map]
    have hpt : ∀ k ∈ uniqKeys (pairs.map Prod.fst),
        ((fun p => matBal (Prod.snd p) e) ∘ fun k =>
          (k, sumMats ((pairs.filter (fun p => p.1 = k)).map Prod.snd))) k =
        ((pairs.filter (fun p => p.1 = k)).map
          (fun q => matBal q.2 e)).sum := by
      intro k _
      show matBal (sumMats ((pairs.filter (fun p => p.1 = k)).map Prod.snd)) e = _
      rw [sumMats_matBal tdf E lv _ e (hfilterOK k), List.map_map]
      rfl
    rw [List.map_congr_left hpt, uniqKeys_eq_uniqRec]
    exact sum_fiber (fun q => matBal q.2 e) pairs

/-- The engine `clever_agg` preserves the per-event total balance
`retention + Σ cessions − claim` from its input groups to its output
matrix. -/
theorem clever_agg_bal (tdf : List Treaty) (E : ℕ)
    (hnd : (tdf.map (fun t => t.code)).Nodup) :
    ∀ (fuel lv : ℕ) (ukeys : List (List Char)) (datalist : List Mat)
      (od : Overdict) (res : Mat) (od' : Overdict),
      PairsOK tdf E lv (ukeys.zip datalist) →
      clever_agg fuel ukeys datalist tdf (mkIdx tdf) od = some (res, od') →
      ∀ e, matBal res e = totBal (ukeys.zip datalist) e := by
  intro fuel
  induction fuel with
  | zero =>
    intro lv ukeys datalist od res od' _ h
    simp [clever_agg] at h
  | succ fuel ih =>
    intro lv ukeys datalist od res od' hok h
    simp only [clever_agg] at h
    split at h
    · rename_i hterm
      subst hterm
      match datalist, h with
      | d :: rest, h =>
        simp only [List.head?, Option.map_some'] at h
        rw [Option.some.injEq, Prod.mk.injEq] at h
        obtain ⟨hres, -⟩ := h
        subst hres
        intro e
        simp [totBal]
    · split at h
      · exact absurd h (by simp)
      · rename_i pairs₁ od₁ hstep
        have hls := level_step_ok tdf E hnd (ukeys.zip datalist) lv od
          pairs₁ od₁ hok hstep
        have hfa := fast_agg2_ok tdf E (lv + 1) pairs₁ hls.1
        have hrec := ih (lv + 1) (fast_agg2 pairs₁).1 (fast_agg2 pairs₁).2
          od₁ res od' hfa.1 h
        intro e
        rw [hrec e, hfa.2.2 e, hls.2.2.1 e]

/-! ## Claim C10: the engine conservation invariant -/

/-- Claim C10 (corrected), counterexample to the claim as stated: with a
single catxl treaty (no proportional treaties, so the claim's
proportional-deductible-0 proviso holds vacuously) and an input matrix
whose catxl cession column is nonzero (7), the treaty step overwrites the
column: `retention + Σ cessions` drops from 12 to 5 (balance 7 → 0), so
the claimed quantity is not preserved. -/
theorem C10_counterexample :
    clever_agg 2 [['A']] [[[5, 5, 7]]]
      [⟨"cat1", TreatyType.catxl, 0, 10, 'A'⟩]
      (mkIdx [⟨"cat1", TreatyType.catxl, 0, 10, 'A'⟩]) [] =
      some ([[0, 5, 5]], []) ∧
    rowBal [5, 5, 7] = 7 ∧ rowBal [0, 5, 5] = 0 ∧ (7 : ℚ) ≠ 0 := by
  refine ⟨?_, ?_, ?_, by norm_num⟩
  · norm_num +decide [clever_agg, level_step, applyGroup, apply_treaty1,
      mkIdx, fast_agg2, uniqKeys, uniqAux, sumMats, odUpdate, List.find?,
      List.indexOf, List.findIdx, List.findIdx.go]
  · norm_num [rowBal]
  · norm_num [rowBal]

/-- Claim C10 (amended): at every recursion level of `clever_agg`, with
every proportional treaty of deductible 0, *and additionally* distinct
treaty codes, group keys of one symbol per treaty position (code or '.'),
and the cession column of every not-yet-processed catxl treaty zero
(`PairsOK`, as holds for the matrices `_by_event` builds), the per-group
treaty step preserves for each event the total
`retention + Σ cessions − claim` and never modifies any group's claim
column; consequently the quantity is invariant (per event, summed over
groups) from the engine's input to its output. -/
theorem C10_engine_invariant (tdf : List Treaty) (E : ℕ)
    (hnd : (tdf.map (fun t => t.code)).Nodup)
    (hpd : ∀ t ∈ tdf, t.ttype = TreatyType.prop → t.deductible = 0) :
    (∀ (lv : ℕ) (pairs pairs' : List (List Char × Mat)) (od od' : Overdict),
      PairsOK tdf E lv pairs →
      level_step tdf (mkIdx tdf) pairs od = some (pairs', od') →
      (∀ e, totBal pairs' e = totBal pairs e) ∧
      (∀ i, ((pairs'.getD i ([], [])).2).map (fun row => row.getD 1 0) =
            ((pairs.getD i ([], [])).2).map (fun row => row.getD 1 0))) ∧
    (∀ (fuel lv : ℕ) (ukeys : List (List Char)) (datalist : List Mat)
      (od : Overdict) (res : Mat) (od' : Overdict),
      PairsOK tdf E lv (ukeys.zip datalist) →
      clever_agg fuel ukeys datalist tdf (mkIdx tdf) od = some (res, od') →
      ∀ e, matBal res e = totBal (ukeys.zip datalist) e) := by
  constructor
  · intro lv pairs pairs' od od' hok h
    have hls := level_step_ok tdf E hnd pairs lv od pairs' od' hok h
    exact ⟨hls.2.2.1, hls.2.2.2⟩
  · exact clever_agg_bal tdf E hnd

/-- Witness for the amended C10: the engine run of the single-catxl
scenario preserves the total balance at every event index. -/
theorem C10_witness :
    matBal [[100, 200, 100]] 0 =
      totBal ([['A']].zip [[[200, 200, 0]]]) 0 := by
  have hrun : clever_agg 2 [['A']] [[[200, 200, 0]]]
      [⟨"cat1", TreatyType.catxl, 50, 150, 'A'⟩]
      (mkIdx [⟨"cat1", TreatyType.catxl, 50, 150, 'A'⟩]) [] =
      some ([[100, 200, 100]], [("over_A", [50])]) := by
    norm_num +decide [clever_agg, level_step, applyGroup, apply_treaty1,
      mkIdx, fast_agg2, uniqKeys, uniqAux, sumMats, odUpdate, List.find?,
      List.indexOf, List.findIdx, List.findIdx.go]
  have hok : PairsOK [⟨"cat1", TreatyType.catxl, 50, 150, 'A'⟩] 1 0
      ([['A']].zip [[[200, 200, 0]]]) := by
    intro p hp
    rw [show ([['A']].zip [[[200, 200, 0]]] :
        List (List Char × Mat)) = [(['A'], [[200, 200, 0]])] from rfl] at hp
    rw [List.mem_singleton] at hp
    subst hp
    refine ⟨⟨by norm_num, ?_⟩, by norm_num, ?_, ?_⟩
    · intro i hi
      have hi0 : i = 0 := by simp at hi; omega
      subst hi0
      left
      rfl
    · intro row hrow
      rw [List.mem_singleton] at hrow
      subst hrow
      norm_num
    · intro row hrow j hj hjT hcat
      rw [List.mem_singleton] at hrow
      have hj0 : j = 0 := by simp at hjT; omega
      subst hj0 hrow
      rfl
  have hpd : ∀ t ∈ [(⟨"cat1", TreatyType.catxl, 50, 150, 'A'⟩ : Treaty)],
      t.ttype = TreatyType.prop → t.deductible = 0 := by
    intro t ht htt
    rw [List.mem_singleton] at ht
    subst ht
    simp at htt
  have h := (C10_engine_invariant [⟨"cat1", TreatyType.catxl, 50, 150, 'A'⟩]
    1 (by simp) hpd).2
    2 0 [['A']] [[[200, 200, 0]]] [] [[100, 200, 100]] [("over_A", [50])]
    hok hrun
  exact h 0

/-! ## Claim C1: the `_by_event` reconciliation invariant -/

theorem zip_map_pair {α β γ : Type} :
    ∀ (l : List α) (f : α → β) (g : α → γ),
      (l.map f).zip (l.map g) = l.map (fun x => (f x, g x))
  | [], _, _ => rfl
  | x :: l, f, g => by simp [zip_map_pair l f g]

theorem getD_drop_any {α : Type} (d : α) : ∀ (n : ℕ) (l : List α) (m : ℕ),
    (l.drop n).getD m d = l.getD (n + m) d
  | 0, l, m => by simp
  | n + 1, [], m => by simp
  | n + 1, x :: l, m => by
    simpa [Nat.succ_add] using getD_drop_any d n l m

theorem getD_append_right' : ∀ (a b : List ℚ) (j : ℕ) (d : ℚ),
    a.length ≤ j → (a ++ b).getD j d = b.getD (j - a.length) d
  | [], b, j, d, _ => by simp
  | x :: a, b, 0, d, h => absurd h (by simp)
  | x :: a, b, j + 1, d, h => by
    simpa [Nat.succ_sub_succ] using
      getD_append_right' a b j d (by simpa using h)

theorem getD_replicate_zero (n m : ℕ) :
    (List.replicate n (0 : ℚ)).getD m 0 = 0 := by
  by_cases h : m < n
  · exact getD_rep 0 n m h
  · exact getD_ge 0 _ m (by simpa using not_lt.mp h)

/-- In a catalog whose catxl treaties all come after the non-catxl ones
(`horder`: any treaty at or after a catxl treaty is catxl), the number of
non-catxl treaties is at most the position of any catxl treaty. -/
theorem noncat_length_le (tdf : List Treaty)
    (horder : ∀ i j, i ≤ j → j < tdf.length →
      (tdf.getD i default).ttype = TreatyType.catxl →
      (tdf.getD j default).ttype = TreatyType.catxl)
    (j : ℕ) (hj : j < tdf.length)
    (hcat : (tdf.getD j default).ttype = TreatyType.catxl) :
    (tdf.filter (fun t => ¬ t.ttype = TreatyType.catxl)).length ≤ j := by
  have hdropcat : (tdf.drop j).filter
      (fun t => ¬ t.ttype = TreatyType.catxl) = [] := by
    rw [List.filter_eq_nil_iff]
    intro t ht
    rw [List.mem_iff_getElem] at ht
    obtain ⟨m, hm, hmt⟩ := ht
    have hmT : j + m < tdf.length := by
      rw [List.length_drop] at hm
      omega
    have ht2 : t = tdf.getD (j + m) default := by
      rw [← hmt, ← List.getD_eq_getElem _ default hm, getD_drop_any]
    have := horder j (j + m) (by omega) hmT hcat
    rw [← ht2] at this
    simp [this]
  calc (tdf.filter (fun t => ¬ t.ttype = TreatyType.catxl)).length
      = ((tdf.take j ++ tdf.drop j).filter
          (fun t => ¬ t.ttype = TreatyType.catxl)).length := by
        rw [List.take_append_drop]
    _ = ((tdf.take j).filter (fun t => ¬ t.ttype = TreatyType.catxl)).length +
        ((tdf.drop j).filter (fun t => ¬ t.ttype = TreatyType.catxl)).length := by
        rw [List.filter_append, List.length_append]
    _ = ((tdf.take j).filter (fun t => ¬ t.ttype = TreatyType.catxl)).length := by
        rw [hdropcat]
        simp
    _ ≤ (tdf.take j).length := List.length_filter_le _ _
    _ ≤ j := by
        rw [List.length_take]
        omega

/-- The matrices `_by_event` builds satisfy the engine invariant at level
0 — E rows of width 2+T with zero catxl columns — provided every catxl
treaty comes after all non-catxl treaties in the catalog (otherwise the
compacted fill loop of the source writes a non-catxl cession sum into a
catxl treaty's column). -/
theorem group_matrix_MatOK (tdf : List Treaty) (eids : List ℕ)
    (rows : List RbpRow)
    (horder : ∀ i j, i ≤ j → j < tdf.length →
      (tdf.getD i default).ttype = TreatyType.catxl →
      (tdf.getD j default).ttype = TreatyType.catxl) :
    MatOK tdf eids.length 0 (group_matrix tdf eids rows) := by
  refine ⟨by simp [group_matrix], ?_, ?_⟩
  · intro row hrow
    rw [group_matrix, List.mem_map] at hrow
    obtain ⟨e, _, hrow⟩ := hrow
    rw [← hrow]
    show ((_ : ℚ) :: (_ : ℚ) ::
      (_ ++ List.replicate (tdf.length - _) (0 : ℚ))).length = 2 + tdf.length
    rw [List.length_cons, List.length_cons, List.length_append,
        List.length_replicate, List.length_map]
    have hle := List.length_filter_le
      (fun t => decide (¬ t.ttype = TreatyType.catxl)) tdf
    omega
  · intro row hrow j _ hjT hcat
    rw [group_matrix, List.mem_map] at hrow
    obtain ⟨e, _, hrow⟩ := hrow
    rw [← hrow]
    show (List.getD (_ :: _ :: (_ ++ List.replicate _ (0 : ℚ))) (2 + j) 0) = 0
    rw [show 2 + j = (j + 1) + 1 by omega, List.getD_cons_succ,
        List.getD_cons_succ]
    have hle := noncat_length_le tdf horder j hjT hcat
    rw [getD_append_right' _ _ j 0 (by simpa using hle)]
    exact getD_replicate_zero _ _

/-- A row of the form built by `_by_event` balances exactly: retention is
defined as claim minus the summed cession columns. -/
theorem group_row_bal (claim : ℚ) (ces : List ℚ) :
    rowBal ((claim - ces.sum) :: claim :: ces) = 0 := by
  unfold rowBal
  simp

theorem group_matrix_bal (tdf : List Treaty) (eids : List ℕ)
    (rows : List RbpRow) (e : ℕ) :
    matBal (group_matrix tdf eids rows) e = 0 := by
  unfold matBal group_matrix
  by_cases he : e < eids.length
  · rw [getD_map' _ 0 [] eids e he]
    exact group_row_bal _ _
  · rw [getD_ge [] _ e (by simp; omega)]
    simp [rowBal]

/-- Keys built by `build_policy_grp` have the level-0 key shape. -/
theorem build_policy_grp_KeyShape (policy : String → ℚ) (tdf : List Treaty) :
    KeyShape (tdf.map (fun t => t.code)) 0 (build_policy_grp policy tdf).data := by
  constructor
  · simp [build_policy_grp]
  · intro i hi
    have hiT : i < tdf.length := by simpa [build_policy_grp] using hi
    have hdata : (build_policy_grp policy tdf).data =
        tdf.map (fun t =>
          if t.ttype = TreatyType.catxl ∧ policy t.id = 0
          then '.' else t.code) := rfl
    rw [hdata, Nat.zero_add,
        getD_map_chr (fun t =>
          if t.ttype = TreatyType.catxl ∧ policy t.id = 0
          then '.' else t.code) default '.' tdf i hiT,
        getD_map_chr (fun t => t.code) default '.' tdf i hiT]
    by_cases hc : (tdf.getD i default).ttype = TreatyType.catxl ∧
        policy (tdf.getD i default).id = 0
    · right
      rw [if_pos hc]
    · left
      rw [if_neg hc]

theorem mem_insertSortedKey (x : String) :
    ∀ (l : List String) (y : String),
      y ∈ insertSortedKey x l → y = x ∨ y ∈ l
  | [], y, h => by
    left
    simpa [insertSortedKey] using h
  | z :: l, y, h => by
    rw [insertSortedKey] at h
    by_cases hc : ltKey x.data z.data = true
    · rw [if_pos hc] at h
      simpa using h
    · rw [if_neg hc] at h
      rcases List.mem_cons.mp h with h | h
      · right
        simp [h]
      · rcases mem_insertSortedKey x l y h with h | h
        · exact Or.inl h
        · right
          simp [h]

theorem mem_sortKeys : ∀ (l : List String) (y : String),
    y ∈ l.foldr insertSortedKey [] → y ∈ l
  | [], y, h => by simpa using h
  | x :: l, y, h => by
    rcases mem_insertSortedKey x (l.foldr insertSortedKey []) y h with h | h
    · simp [h]
    · simp [mem_sortKeys l y h]

/-- The (key, matrix) pairs `_by_event` hands to `clever_agg` satisfy the
engine invariant, provided every group key was built by
`build_policy_grp` and the catalog lists every catxl treaty after all
non-catxl treaties. -/
theorem by_event_PairsOK (tdf : List Treaty) (rbp : List RbpRow)
    (hgrp : ∀ r ∈ rbp, ∃ policy, r.policy_grp = build_policy_grp policy tdf)
    (horder : ∀ i j, i ≤ j → j < tdf.length →
      (tdf.getD i default).ttype = TreatyType.catxl →
      (tdf.getD j default).ttype = TreatyType.catxl) :
    PairsOK tdf (by_event_eids rbp).length 0
      ((by_event_keys rbp).zip (by_event_data tdf rbp)) := by
  intro p hp
  rw [by_event_keys, by_event_data, zip_map_pair, List.mem_map] at hp
  obtain ⟨s, hs, hsp⟩ := hp
  have hsmem : s ∈ rbp.map (fun r => r.policy_grp) :=
    uniqKeys_subset _ s (mem_sortKeys _ s hs)
  rw [List.mem_map] at hsmem
  obtain ⟨r, hr, hrs⟩ := hsmem
  obtain ⟨policy, hpol⟩ := hgrp r hr
  constructor
  · rw [← hsp]
    show KeyShape _ 0 s.data
    rw [← hrs, hpol]
    exact build_policy_grp_KeyShape policy tdf
  · rw [← hsp]
    exact group_matrix_MatOK tdf _ _ horder

/-- Claim C1 (amended): whenever the aggregate-treaty engine returns, for
a run whose treaty catalog lists every catastrophe-excess treaty after
all non-catxl treaties (so the compacted column writes of `_by_event`
line up with the treaty columns and the catxl columns enter the engine
zero), every event of the result satisfies
`retention + Σ cessions = claim` (exactly in ℚ, hence within every
rounding tolerance), and the reconciliation assertion of `_by_event`
passes: the run is not aborted.  The assertion aborting on violation
(`none`, never a recoverable error) is the definition of `by_event`;
for catalogs with a catxl treaty before a non-catxl one the invariant
can fail and the assertion then aborts the run
(`C1_counterexample`). -/
theorem C1_reconciliation (tdf : List Treaty) (rbp : List RbpRow) (fuel : ℕ)
    (hnd : (tdf.map (fun t => t.code)).Nodup)
    (hgrp : ∀ r ∈ rbp, ∃ policy, r.policy_grp = build_policy_grp policy tdf)
    (horder : ∀ i j, i ≤ j → j < tdf.length →
      (tdf.getD i default).ttype = TreatyType.catxl →
      (tdf.getD j default).ttype = TreatyType.catxl)
    (res : Mat) (od : Overdict)
    (h : clever_agg fuel (by_event_keys rbp) (by_event_data tdf rbp) tdf
      (mkIdx tdf) [] = some (res, od)) :
    (∀ row ∈ res, row.getD 0 0 + (row.drop 2).sum = row.getD 1 0) ∧
    by_event fuel rbp tdf = some (res, od) := by
  have hbal : ∀ e, matBal res e = 0 := by
    intro e
    rw [clever_agg_bal tdf (by_event_eids rbp).length hnd fuel 0
      (by_event_keys rbp) (by_event_data tdf rbp) [] res od
      (by_event_PairsOK tdf rbp hgrp horder) h e]
    rw [by_event_keys, by_event_data, zip_map_pair]
    unfold totBal
    rw [List.map_map]
    apply List.sum_eq_zero
    intro x hx
    rw [List.mem_map] at hx
    obtain ⟨s, _, hsx⟩ := hx
    rw [← hsx]
    exact group_matrix_bal tdf _ _ e
  have hrows : ∀ row ∈ res, row.getD 0 0 + (row.drop 2).sum = row.getD 1 0 := by
    intro row hrow
    rw [List.mem_iff_getElem] at hrow
    obtain ⟨e, he, hrow⟩ := hrow
    have hb := hbal e
    unfold matBal at hb
    rw [List.getD_eq_getElem res [] he, hrow] at hb
    unfold rowBal at hb
    linarith
  have hrec : reconciled res := by
    intro row hrow
    rw [show row.getD 0 0 + (row.drop 2).sum - row.getD 1 0 = 0 from by
      have := hrows row hrow; linarith]
    simpa using mul_nonneg (by norm_num : (0 : ℚ) ≤ 1/10000000)
      (abs_nonneg (row.getD 1 0))
  refine ⟨hrows, ?_⟩
  unfold by_event
  rw [h]
  show (if reconciled res then some (res, od) else none) = some (res, od)
  rw [if_pos hrec]

/-- Witness for C1: a one-policy, one-event, one-catxl-treaty run;
the engine nets 50 into the treaty column, the reconciliation
`50 + 50 = 100` holds and the assertion passes. -/
theorem C1_witness :
    (∀ row ∈ ([[50, 100, 50]] : Mat),
      row.getD 0 0 + (row.drop 2).sum = row.getD 1 0) ∧
    by_event 2 [⟨1, "A", 100, fun _ => 0⟩]
      [⟨"cat1", TreatyType.catxl, 50, 150, 'A'⟩] =
      some ([[50, 100, 50]], []) := by
  have hk : by_event_keys [⟨1, "A", 100, fun _ => 0⟩] = [['A']] := rfl
  have hd : by_event_data [⟨"cat1", TreatyType.catxl, 50, 150, 'A'⟩]
      [⟨1, "A", 100, fun _ => 0⟩] = [[[100, 100, 0]]] := by
    norm_num +decide [by_event_data, by_event_grps, by_event_eids,
      group_matrix, uniqSorted, uniqKeys, uniqAux, insertSorted,
      insertSortedKey]
  have hrun : clever_agg 2
      (by_event_keys [⟨1, "A", 100, fun _ => 0⟩])
      (by_event_data [⟨"cat1", TreatyType.catxl, 50, 150, 'A'⟩]
        [⟨1, "A", 100, fun _ => 0⟩])
      [⟨"cat1", TreatyType.catxl, 50, 150, 'A'⟩]
      (mkIdx [⟨"cat1", TreatyType.catxl, 50, 150, 'A'⟩]) [] =
      some ([[50, 100, 50]], []) := by
    rw [hk, hd]
    norm_num +decide [clever_agg, level_step, applyGroup, apply_treaty1,
      mkIdx, fast_agg2, uniqKeys, uniqAux, sumMats, odUpdate, List.find?,
      List.indexOf, List.findIdx, List.findIdx.go]
  have hgrp : ∀ r ∈ [(⟨1, "A", 100, fun _ => 0⟩ : RbpRow)],
      ∃ policy, r.policy_grp =
        build_policy_grp policy [⟨"cat1", TreatyType.catxl, 50, 150, 'A'⟩] := by
    intro r hr
    rw [List.mem_singleton] at hr
    subst hr
    exact ⟨fun _ => 1, by norm_num +decide [build_policy_grp]⟩
  have horder : ∀ i j, i ≤ j →
      j < ([(⟨"cat1", TreatyType.catxl, 50, 150, 'A'⟩ : Treaty)]).length →
      (([(⟨"cat1", TreatyType.catxl, 50, 150, 'A'⟩ : Treaty)]).getD i
        default).ttype = TreatyType.catxl →
      (([(⟨"cat1", TreatyType.catxl, 50, 150, 'A'⟩ : Treaty)]).getD j
        default).ttype = TreatyType.catxl := by
    intro i j hij hj hcat
    have hj0 : j = 0 := by simp at hj; omega
    have hi0 : i = 0 := by omega
    subst hj0
    subst hi0
    exact hcat
  exact C1_reconciliation [⟨"cat1", TreatyType.catxl, 50, 150, 'A'⟩]
    [⟨1, "A", 100, fun _ => 0⟩] 2 (by simp) hgrp horder [[50, 100, 50]] []
    hrun

/-- Claim C1, counterexample to the claim as stated (for *every* run):
with catalog [catxl 'A' (deductible 50, limit 150), wxlr 'B'] — a catxl
treaty declared before a non-catxl one — and one policy with claim 100
and wxlr cession 30, the compacted fill loop of `_by_event` writes the
wxlr sum 30 into the catxl column: the engine then overwrites that
column (retention 70 → 50, cession → 20), the returned event has
`retention + Σ cessions = 70 ≠ 100 = claim`, and the reconciliation
assertion aborts the run. -/
theorem C1_counterexample :
    (∃ policy, "AB" = build_policy_grp policy
      [⟨"catA", TreatyType.catxl, 50, 150, 'A'⟩,
       ⟨"wxlB", TreatyType.wxlr, 10, 40, 'B'⟩]) ∧
    clever_agg 3
      (by_event_keys [⟨1, "AB", 100, fun s => if s = "wxlB" then 30 else 0⟩])
      (by_event_data [⟨"catA", TreatyType.catxl, 50, 150, 'A'⟩,
          ⟨"wxlB", TreatyType.wxlr, 10, 40, 'B'⟩]
        [⟨1, "AB", 100, fun s => if s = "wxlB" then 30 else 0⟩])
      [⟨"catA", TreatyType.catxl, 50, 150, 'A'⟩,
       ⟨"wxlB", TreatyType.wxlr, 10, 40, 'B'⟩]
      (mkIdx [⟨"catA", TreatyType.catxl, 50, 150, 'A'⟩,
              ⟨"wxlB", TreatyType.wxlr, 10, 40, 'B'⟩]) [] =
      some ([[50, 100, 20, 0]], []) ∧
    ¬ (([50, 100, 20, 0] : Row).getD 0 0 +
        (([50, 100, 20, 0] : Row).drop 2).sum =
        ([50, 100, 20, 0] : Row).getD 1 0) ∧
    by_event 3 [⟨1, "AB", 100, fun s => if s = "wxlB" then 30 else 0⟩]
      [⟨"catA", TreatyType.catxl, 50, 150, 'A'⟩,
       ⟨"wxlB", TreatyType.wxlr, 10, 40, 'B'⟩] = none := by
  have hk : by_event_keys
      [⟨1, "AB", 100, fun s => if s = "wxlB" then 30 else 0⟩] =
      [['A', 'B']] := rfl
  have hd : by_event_data [⟨"catA", TreatyType.catxl, 50, 150, 'A'⟩,
        ⟨"wxlB", TreatyType.wxlr, 10, 40, 'B'⟩]
      [⟨1, "AB", 100, fun s => if s = "wxlB" then 30 else 0⟩] =
      [[[70, 100, 30, 0]]] := by
    norm_num +decide [by_event_data, by_event_grps, by_event_eids,
      group_matrix, uniqSorted, uniqKeys, uniqAux, insertSorted,
      insertSortedKey]
  have hidxR : mkIdx [(⟨"catA", TreatyType.catxl, 50, 150, 'A'⟩ : Treaty),
      ⟨"wxlB", TreatyType.wxlr, 10, 40, 'B'⟩] "retention" = 0 := by decide
  have hidxA : mkIdx [(⟨"catA", TreatyType.catxl, 50, 150, 'A'⟩ : Treaty),
      ⟨"wxlB", TreatyType.wxlr, 10, 40, 'B'⟩] (String.mk ['A']) = 2 := by
    decide
  have hidxB : mkIdx [(⟨"catA", TreatyType.catxl, 50, 150, 'A'⟩ : Treaty),
      ⟨"wxlB", TreatyType.wxlr, 10, 40, 'B'⟩] (String.mk ['B']) = 3 := by
    decide
  have hrun : clever_agg 3
      (by_event_keys [⟨1, "AB", 100, fun s => if s = "wxlB" then 30 else 0⟩])
      (by_event_data [⟨"catA", TreatyType.catxl, 50, 150, 'A'⟩,
          ⟨"wxlB", TreatyType.wxlr, 10, 40, 'B'⟩]
        [⟨1, "AB", 100, fun s => if s = "wxlB" then 30 else 0⟩])
      [⟨"catA", TreatyType.catxl, 50, 150, 'A'⟩,
       ⟨"wxlB", TreatyType.wxlr, 10, 40, 'B'⟩]
      (mkIdx [⟨"catA", TreatyType.catxl, 50, 150, 'A'⟩,
              ⟨"wxlB", TreatyType.wxlr, 10, 40, 'B'⟩]) [] =
      some ([[50, 100, 20, 0]], []) := by
    rw [hk, hd]
    norm_num +decide [clever_agg, level_step, applyGroup, apply_treaty1,
      hidxR, hidxA, hidxB, fast_agg2, uniqKeys, uniqAux, sumMats, addMat,
      odUpdate, List.find?]
  refine ⟨⟨fun _ => 1, by norm_num +decide [build_policy_grp]⟩, hrun,
    by norm_num, ?_⟩
  have hnr : ¬ reconciled [[50, 100, 20, 0]] := by
    intro hrec
    have h2 := hrec [50, 100, 20, 0] (by simp)
    rw [show ([50, 100, 20, 0] : Row).getD 0 0 +
        (([50, 100, 20, 0] : Row).drop 2).sum -
        ([50, 100, 20, 0] : Row).getD 1 0 = -30 by norm_num,
      show ([50, 100, 20, 0] : Row).getD 1 0 = 100 by norm_num,
      abs_neg, abs_of_nonneg (by norm_num : (0 : ℚ) ≤ 30),
      abs_of_nonneg (by norm_num : (0 : ℚ) ≤ 100)] at h2
    norm_num at h2
  unfold by_event
  rw [hrun]
  show (if reconciled [[50, 100, 20, 0]] then _ else none) = none
  rw [if_neg hnr]

/-! ## Claim C7: aggregate cap for proportional treaties -/

theorem mkIdx_codeStr_ge2 (tdf : List Treaty) (c : Char) :
    2 ≤ mkIdx tdf (String.mk [c]) := by
  rw [mkIdx_code_eq]
  omega

/-- Claim C7 (confirmed): at the recursion level where a proportional
treaty's code leads the key, for every event whose summed cession for the
treaty exceeds the treaty's limit the excess is moved back into retention
and the cession entry is clipped to the limit, and every other event's
row is left unchanged by this step.  `tr.deductible = 0` is the
parse-time invariant of proportional treaties (reinsurance.py:105). -/
theorem C7_prop_aggregate_cap (tdf : List Treaty) (c : Char) (tr : Treaty)
    (k : List Char) (data : Mat) (od : Overdict)
    (pairs' : List (List Char × Mat)) (od' : Overdict)
    (hc : c ≠ '.')
    (hfind : tdf.find? (fun t => t.code = c) = some tr)
    (htype : tr.ttype = TreatyType.prop)
    (hded : tr.deductible = 0)
    (hlen : ∀ row ∈ data, mkIdx tdf (String.mk [c]) < row.length)
    (h : level_step tdf (mkIdx tdf) [(c :: k, data)] od = some (pairs', od')) :
    ∃ data', pairs' = [(k, data')] ∧ data'.length = data.length ∧
      ∀ e, e < data.length →
        (tr.limit < (data.getD e []).getD (mkIdx tdf (String.mk [c])) 0 →
          (data'.getD e []).getD 0 0 =
            (data.getD e []).getD 0 0 +
              ((data.getD e []).getD (mkIdx tdf (String.mk [c])) 0 - tr.limit) ∧
          (data'.getD e []).getD (mkIdx tdf (String.mk [c])) 0 = tr.limit) ∧
        ((data.getD e []).getD (mkIdx tdf (String.mk [c])) 0 ≤ tr.limit →
          data'.getD e [] = data.getD e []) := by
  simp only [level_step] at h
  split at h
  · exact absurd h (by simp)
  · rename_i one data' od₁ hone
    rw [if_neg hc, hfind] at hone
    simp only [Option.some.injEq, Prod.mk.injEq] at hone
    obtain ⟨hdata', -⟩ := hone
    simp only [Option.some.injEq, Prod.mk.injEq] at h
    obtain ⟨hpairs', -⟩ := h
    rw [mkIdx_retention, applyGroup_fst] at hdata'
    refine ⟨data', hpairs'.symm, ?_, ?_⟩
    · rw [← hdata']
      simp
    · intro e he
      have hrowmem : data.getD e [] ∈ data := getD_mem [] data e he
      have hgd : data'.getD e [] =
          groupRowFn tr 0 (mkIdx tdf (String.mk [c])) (data.getD e []) := by
        rw [← hdata']
        exact getD_map' _ [] [] data e he
      have hiC2 : 2 ≤ mkIdx tdf (String.mk [c]) := mkIdx_codeStr_ge2 tdf c
      have hiCr : mkIdx tdf (String.mk [c]) < (data.getD e []).length :=
        hlen _ hrowmem
      constructor
      · intro hover
        have hcond : 0 < (data.getD e []).getD (mkIdx tdf (String.mk [c])) 0 -
            (tr.limit - tr.deductible) := by
          rw [hded]
          linarith
        rw [hgd]
        unfold groupRowFn
        rw [htype]
        simp only
        rw [if_pos hcond]
        constructor
        · rw [getD_set_ne 0 _ _ 0 _ (by omega),
              getD_set_self 0 _ 0 _ (by omega)]
        · rw [getD_set_self 0 _ _ _ (by simpa using hiCr)]
      · intro hunder
        have hcond : ¬ (0 < (data.getD e []).getD (mkIdx tdf (String.mk [c])) 0 -
            (tr.limit - tr.deductible)) := by
          rw [hded]
          intro hlt
          linarith
        rw [hgd]
        unfold groupRowFn
        rw [htype]
        simp only
        rw [if_neg hcond]

/-- Witness for C7: a proportional treaty with limit 10 on a group whose
summed cession 12 exceeds it; the event is clipped to 10 and the
excess 2 moves back into retention. -/
theorem C7_witness :
    ∃ data' : Mat, ([(([] : List Char), [[7, 20, 10]])] :
        List (List Char × Mat)) = [([], data')] ∧
      data'.length = ([[5, 20, 12]] : Mat).length ∧
      ∀ e, e < ([[5, 20, 12]] : Mat).length →
        ((⟨"p1", TreatyType.prop, 0, 10, 'P'⟩ : Treaty).limit <
          (([[5, 20, 12]] : Mat).getD e []).getD
            (mkIdx [⟨"p1", TreatyType.prop, 0, 10, 'P'⟩] (String.mk ['P'])) 0 →
          ((data'.getD e []).getD 0 0 =
            (([[5, 20, 12]] : Mat).getD e []).getD 0 0 +
              ((([[5, 20, 12]] : Mat).getD e []).getD
                (mkIdx [⟨"p1", TreatyType.prop, 0, 10, 'P'⟩] (String.mk ['P'])) 0 -
                (⟨"p1", TreatyType.prop, 0, 10, 'P'⟩ : Treaty).limit) ∧
          (data'.getD e []).getD
            (mkIdx [⟨"p1", TreatyType.prop, 0, 10, 'P'⟩] (String.mk ['P'])) 0 =
            (⟨"p1", TreatyType.prop, 0, 10, 'P'⟩ : Treaty).limit)) ∧
        ((([[5, 20, 12]] : Mat).getD e []).getD
            (mkIdx [⟨"p1", TreatyType.prop, 0, 10, 'P'⟩] (String.mk ['P'])) 0 ≤
          (⟨"p1", TreatyType.prop, 0, 10, 'P'⟩ : Treaty).limit →
          data'.getD e [] = ([[5, 20, 12]] : Mat).getD e []) := by
  apply C7_prop_aggregate_cap [⟨"p1", TreatyType.prop, 0, 10, 'P'⟩] 'P'
    ⟨"p1", TreatyType.prop, 0, 10, 'P'⟩ [] [[5, 20, 12]] []
    [([], [[7, 20, 10]])] [("over_P", [2])]
  · decide
  · rfl
  · rfl
  · rfl
  · intro row hrow
    rw [List.mem_singleton] at hrow
    subst hrow
    decide
  · have hidx2 : mkIdx [(⟨"p1", TreatyType.prop, 0, 10, 'P'⟩ : Treaty)]
        (String.mk ['P']) = 2 := by decide
    have hidx0 : mkIdx [(⟨"p1", TreatyType.prop, 0, 10, 'P'⟩ : Treaty)]
        "retention" = 0 := by decide
    norm_num +decide [level_step, applyGroup, apply_treaty1, hidx2, hidx0,
      odUpdate, List.find?]

/-! ## Claim C4: overspill recording -/

theorem lookup_odUpdate_self : ∀ (od : Overdict) (k : String) (v : List ℚ),
    (odUpdate od k v).lookup k = some v
  | [], k, v => by simp [odUpdate, List.lookup]
  | (k', v') :: rest, k, v => by
    by_cases h : k' = k
    · simp [odUpdate, h, List.lookup]
    · have hne : (k == k') = false := beq_eq_false_iff_ne.mpr (Ne.symm h)
      simp only [odUpdate, if_neg h, List.lookup, hne]
      exact lookup_odUpdate_self rest k v

theorem lookup_odUpdate_ne : ∀ (od : Overdict) (k k' : String) (v : List ℚ),
    k ≠ k' → (odUpdate od k v).lookup k' = od.lookup k'
  | [], k, k', v, h => by
    have hne : (k' == k) = false := beq_eq_false_iff_ne.mpr (Ne.symm h)
    simp [odUpdate, List.lookup, hne]
  | (k0, v0) :: rest, k, k', v, h => by
    by_cases h0 : k0 = k
    · have hne : (k' == k) = false := beq_eq_false_iff_ne.mpr (Ne.symm h)
      subst h0
      simp [odUpdate, List.lookup, hne]
    · simp only [odUpdate, if_neg h0, List.lookup]
      rw [lookup_odUpdate_ne rest k k' v h]

theorem getLast?_cons_or {α : Type} (x : α) (rs : List α) (y : Option α) :
    ((x :: rs).getLast?).or y = rs.getLast?.or (some x) := by
  cases rs with
  | nil => simp
  | cons a as =>
    rcases hgl : (a :: as).getLast? with _ | z
    · simp at hgl
    · rw [List.getLast?_cons_cons, hgl]
      simp

theorem overKey_inj (c c' : Char)
    (h : ("over_" ++ String.mk [c]) = ("over_" ++ String.mk [c'])) :
    c = c' := by
  have hd := congrArg String.data h
  rw [String.data_append, String.data_append] at hd
  have := List.append_cancel_left hd
  simpa using this

/-- The overspill arrays recorded for code `c` by the groups of one
`clever_agg` level, in group order. -/
def overRecords (tdf : List Treaty) (idx : String → ℕ) (c : Char)
    (pairs : List (List Char × Mat)) : List (List ℚ) :=
  pairs.filterMap (fun p =>
    match groupOver tdf idx p with
    | some (c', v) => if c' = c then some v else none
    | none => none)

/-- Claim C4 (amended): whenever an excess occurs at a recursion level,
its positive part is recorded in the overspill dict keyed by the treaty's
code; when several groups produce overspill for the same code at the same
level, each write overwrites the previous one, so the recorded array is
that of the *last* such group in group order (not the element-wise
maximum over the groups). -/
theorem C4_overspill_last_wins (tdf : List Treaty) (idx : String → ℕ) :
    ∀ (pairs : List (List Char × Mat)) (od : Overdict)
      (pairs' : List (List Char × Mat)) (od' : Overdict) (c : Char),
      level_step tdf idx pairs od = some (pairs', od') →
      od'.lookup ("over_" ++ String.mk [c]) =
        ((overRecords tdf idx c pairs).getLast?).or
          (od.lookup ("over_" ++ String.mk [c])) := by
  intro pairs
  induction pairs with
  | nil =>
    intro od pairs' od' c h
    simp only [level_step, Option.some.injEq, Prod.mk.injEq] at h
    rw [← h.2]
    simp [overRecords]
  | cons hd rest ih =>
    intro od pairs' od' c h
    obtain ⟨key, data⟩ := hd
    match key with
    | [] => simp [level_step] at h
    | c0 :: k0 =>
      simp only [level_step] at h
      split at h
      · exact absurd h (by simp)
      · rename_i one data' od₁ hone
        split at h
        · exact absurd h (by simp)
        · rename_i rest' od'' hrest
          simp only [Option.some.injEq, Prod.mk.injEq] at h
          have hod' : od'' = od' := h.2
          subst hod'
          have hrec := ih od₁ rest' od'' c hrest
          rw [hrec]
          have hhead : overRecords tdf idx c ((c0 :: k0, data) :: rest) =
              (match groupOver tdf idx (c0 :: k0, data) with
                | some (c', v) => if c' = c then some v else none
                | none => none).toList ++ overRecords tdf idx c rest := by
            rw [overRecords, List.filterMap_cons]
            cases hgo : groupOver tdf idx (c0 :: k0, data) with
            | none => simp [overRecords]
            | some p =>
              obtain ⟨c', v⟩ := p
              by_cases hcc : c' = c
              · simp [hcc, overRecords]
              · simp [hcc, overRecords]
          split at hone
          · -- leading '.': nothing recorded, od₁ = od
            rename_i hc0
            simp only [Option.some.injEq, Prod.mk.injEq] at hone
            have hod₁ : od₁ = od := hone.2.symm
            subst hod₁
            rw [hhead]
            rw [show groupOver tdf idx (c0 :: k0, data) = none from by
              simp [groupOver, hc0]]
            simp
          · rename_i hc0
            split at hone
            · exact absurd hone (by simp)
            · rename_i tr hfind
              simp only [Option.some.injEq, Prod.mk.injEq] at hone
              have hod₁ : od₁ = (if (applyGroup tr (idx "retention")
                  (idx (String.mk [c0])) data).2.2 = true then
                    odUpdate od ("over_" ++ String.mk [c0])
                      ((applyGroup tr (idx "retention")
                        (idx (String.mk [c0])) data).2.1.map
                          (fun x => max x 0))
                  else od) := hone.2.symm
              have hgo : groupOver tdf idx (c0 :: k0, data) =
                  (if (applyGroup tr (idx "retention")
                      (idx (String.mk [c0])) data).2.2 = true then
                    some (c0, (applyGroup tr (idx "retention")
                      (idx (String.mk [c0])) data).2.1.map
                        (fun x => max x 0))
                  else none) := by
                simp [groupOver, hc0, hfind]
              by_cases hov : (applyGroup tr (idx "retention")
                  (idx (String.mk [c0])) data).2.2 = true
              · rw [if_pos hov] at hod₁ hgo
                subst hod₁
                rw [hhead, hgo]
                by_cases hcc : c0 = c
                · subst hcc
                  rw [lookup_odUpdate_self]
                  simp only [if_true, Option.toList_some, List.singleton_append]
                  rw [getLast?_cons_or]
                · rw [lookup_odUpdate_ne od _ _ _
                    (fun he => hcc (overKey_inj c0 c he))]
                  simp [hcc]
              · rw [if_neg hov] at hod₁ hgo
                subst hod₁
                rw [hhead, hgo]
                simp

/-- Claim C4 (corrected), counterexample to the claim as stated: two
groups (keys "AB" and "A.") both overspill catxl treaty 'A' at level 0,
with positive parts [20] and [5]; the element-wise maximum is [20], but
the dict write of the second group overwrites the first, so the run
records [5] ≠ [20] for 'A'. -/
theorem C4_counterexample :
    clever_agg 3 [['A', 'B'], ['A', '.']]
      [[[30, 30, 0, 0]], [[15, 15, 0, 0]]]
      [⟨"catA", TreatyType.catxl, 0, 10, 'A'⟩,
       ⟨"catB", TreatyType.catxl, 1000, 1000, 'B'⟩]
      (mkIdx [⟨"catA", TreatyType.catxl, 0, 10, 'A'⟩,
              ⟨"catB", TreatyType.catxl, 1000, 1000, 'B'⟩]) [] =
      some ([[25, 45, 20, 0]], [("over_A", [5])]) ∧
    overRecords [⟨"catA", TreatyType.catxl, 0, 10, 'A'⟩,
        ⟨"catB", TreatyType.catxl, 1000, 1000, 'B'⟩]
      (mkIdx [⟨"catA", TreatyType.catxl, 0, 10, 'A'⟩,
              ⟨"catB", TreatyType.catxl, 1000, 1000, 'B'⟩]) 'A'
      [(['A', 'B'], [[30, 30, 0, 0]]), (['A', '.'], [[15, 15, 0, 0]])] =
      [[20], [5]] ∧
    List.zipWith max [(20 : ℚ)] [5] = [20] ∧
    ([5] : List ℚ) ≠ [20] := by
  have hidxR : mkIdx [(⟨"catA", TreatyType.catxl, 0, 10, 'A'⟩ : Treaty),
      ⟨"catB", TreatyType.catxl, 1000, 1000, 'B'⟩] "retention" = 0 := by decide
  have hidxA : mkIdx [(⟨"catA", TreatyType.catxl, 0, 10, 'A'⟩ : Treaty),
      ⟨"catB", TreatyType.catxl, 1000, 1000, 'B'⟩] (String.mk ['A']) = 2 := by
    decide
  have hidxB : mkIdx [(⟨"catA", TreatyType.catxl, 0, 10, 'A'⟩ : Treaty),
      ⟨"catB", TreatyType.catxl, 1000, 1000, 'B'⟩] (String.mk ['B']) = 3 := by
    decide
  refine ⟨?_, ?_, by norm_num [max_def], by
    intro hx
    have := congrArg (fun l => List.getD l 0 (0 : ℚ)) hx
    norm_num at this⟩
  · norm_num +decide [clever_agg, level_step, applyGroup, apply_treaty1,
      hidxR, hidxA, hidxB, fast_agg2, uniqKeys, uniqAux, sumMats, addMat,
      odUpdate, List.find?]
  · norm_num +decide [overRecords, groupOver, applyGroup, apply_treaty1,
      hidxR, hidxA, List.find?, List.filterMap_cons]

/-- Witness for the amended C4: at the two-group level above, the
recorded value for 'A' is the last group's positive overspill. -/
theorem C4_witness :
    List.lookup ("over_" ++ String.mk ['A'])
        ([("over_A", [5])] : Overdict) =
      ((overRecords [⟨"catA", TreatyType.catxl, 0, 10, 'A'⟩,
          ⟨"catB", TreatyType.catxl, 1000, 1000, 'B'⟩]
        (mkIdx [⟨"catA", TreatyType.catxl, 0, 10, 'A'⟩,
                ⟨"catB", TreatyType.catxl, 1000, 1000, 'B'⟩]) 'A'
        [(['A', 'B'], [[30, 30, 0, 0]]),
         (['A', '.'], [[15, 15, 0, 0]])]).getLast?).or
        (List.lookup ("over_" ++ String.mk ['A']) ([] : Overdict)) := by
  have hidxR : mkIdx [(⟨"catA", TreatyType.catxl, 0, 10, 'A'⟩ : Treaty),
      ⟨"catB", TreatyType.catxl, 1000, 1000, 'B'⟩] "retention" = 0 := by decide
  have hidxA : mkIdx [(⟨"catA", TreatyType.catxl, 0, 10, 'A'⟩ : Treaty),
      ⟨"catB", TreatyType.catxl, 1000, 1000, 'B'⟩] (String.mk ['A']) = 2 := by
    decide
  have hstep : level_step [⟨"catA", TreatyType.catxl, 0, 10, 'A'⟩,
      ⟨"catB", TreatyType.catxl, 1000, 1000, 'B'⟩]
      (mkIdx [⟨"catA", TreatyType.catxl, 0, 10, 'A'⟩,
              ⟨"catB", TreatyType.catxl, 1000, 1000, 'B'⟩])
      [(['A', 'B'], [[30, 30, 0, 0]]), (['A', '.'], [[15, 15, 0, 0]])] [] =
      some ([(['B'], [[20, 30, 10, 0]]), (['.'], [[5, 15, 10, 0]])],
        [("over_A", [5])]) := by
    norm_num +decide [level_step, applyGroup, apply_treaty1, hidxR, hidxA,
      odUpdate, List.find?]
  exact C4_overspill_last_wins _ _ _ [] _ _ 'A' hstep

/-! ## Claim C5: the catastrophe-excess end-to-end scenario -/

/-- Claim C5 (corrected), counterexample to the claim as stated: in the
scenario (catxl deductible 50, limit 150, capacity 100, aggregate
retention 200) retention and cession do become 100, but the overspill
recorded for the treaty is `max (200 − 50 − 100) 0 = 50`, not 0. -/
theorem C5_counterexample :
    clever_agg 2 [['A']] [[[200, 200, 0]]]
      [⟨"cat1", TreatyType.catxl, 50, 150, 'A'⟩]
      (mkIdx [⟨"cat1", TreatyType.catxl, 50, 150, 'A'⟩]) [] =
      some ([[100, 200, 100]], [("over_A", [50])]) ∧
    List.lookup "over_A" ([("over_A", [50])] : Overdict) = some [50] ∧
    (50 : ℚ) ≠ 0 := by
  refine ⟨?_, rfl, by norm_num⟩
  norm_num +decide [clever_agg, level_step, applyGroup, apply_treaty1,
    mkIdx, fast_agg2, uniqKeys, uniqAux, sumMats, odUpdate, List.find?,
    List.indexOf, List.findIdx, List.findIdx.go]

/-- Claim C5 (amended): in the single-policy catastrophe-excess scenario
(deductible 50, limit 150, capacity 100, aggregate retention 200) the
engine produces retention 100 and cession 100 (the saturated branch), and
the overspill recorded for the treaty is 50 = retention − deductible −
capacity (not 0). -/
theorem C5_catxl_scenario :
    ∃ res od,
      clever_agg 2 [['A']] [[[200, 200, 0]]]
        [⟨"cat1", TreatyType.catxl, 50, 150, 'A'⟩]
        (mkIdx [⟨"cat1", TreatyType.catxl, 50, 150, 'A'⟩]) [] =
        some (res, od) ∧
      (res.getD 0 []).getD 0 0 = 100 ∧
      (res.getD 0 []).getD 2 0 = 100 ∧
      od.lookup "over_A" = some [50] := by
  refine ⟨[[100, 200, 100]], [("over_A", [50])], ?_, by norm_num, by norm_num,
    rfl⟩
  norm_num +decide [clever_agg, level_step, applyGroup, apply_treaty1,
    mkIdx, fast_agg2, uniqKeys, uniqAux, sumMats, odUpdate, List.find?,
    List.indexOf, List.findIdx, List.findIdx.go]

end Reinsurance
